import Mathlib

/-!
Verification of the logger-context-json-serializable rule of the
uptime-watcher ESLint plugin.

The development shallowly embeds the rule implementation: the recursive
type-classification predicate isJsonSerializableType together with the
call-site selector (getLoggerMethod, getContextArgumentForMethod) and the
CallExpression visitor that emits diagnostics.  TypeScript type descriptors
are modelled as nodes of a finite graph (a node records the rendering
produced by checker.typeToString, the union/intersection/tuple/array form,
signature counts, the string index type and the declared properties).  The
mutable visited set of the source is threaded through every call, and the
recursion is driven by a fuel argument whose sufficiency is proved below.
-/

set_option maxHeartbeats 1000000

namespace UWatch

/-- Whitespace characters recognised by the JS trim and Number conversions. -/
def isJsWhitespaceChar (c : Char) : Bool :=
  c = ' ' || c = '\t' || c = '\n' || c = '\r' || c = '\x0b' || c = '\x0c' ||
  c = ' ' || c = '﻿'

/-- Remove leading and trailing JS whitespace from a character list. -/
def trimChars (cs : List Char) : List Char :=
  ((cs.dropWhile isJsWhitespaceChar).reverse.dropWhile isJsWhitespaceChar).reverse

/-- Model of String.prototype.trim, as applied to checker.typeToString output. -/
def jsTrim (s : String) : String := ⟨trimChars s.data⟩

/-- Decimal digit test. -/
def isDecDigit (c : Char) : Bool := '0' ≤ c && c ≤ '9'

/-- Value of a decimal digit. -/
def decDigitVal (c : Char) : Nat := c.toNat - 48

/-- Value of a decimal digit string. -/
def decDigitsVal (ds : List Char) : Nat := ds.foldl (fun a c => 10 * a + decDigitVal c) 0

/-- Hexadecimal digit test. -/
def isHexDigit (c : Char) : Bool :=
  isDecDigit c || ('a' ≤ c && c ≤ 'f') || ('A' ≤ c && c ≤ 'F')

/-- Value of a hexadecimal digit. -/
def hexDigitVal (c : Char) : Nat :=
  if isDecDigit c then decDigitVal c
  else if 'a' ≤ c && c ≤ 'f' then c.toNat - 87
  else c.toNat - 55

/-- Octal digit test. -/
def isOctDigit (c : Char) : Bool := '0' ≤ c && c ≤ '7'

/-- Binary digit test. -/
def isBinDigit (c : Char) : Bool := c = '0' || c = '1'

/-- Result of the JS Number(string) conversion: not a number, a signed
infinity, or a finite value (modelled as a rational; the float rounding of
the host is immaterial to the predicates built on top of it). -/
inductive JsNumber where
  | nan
  | infinite (negative : Bool)
  | finite (value : ℚ)
deriving DecidableEq, Repr

/-- Whether the conversion result is a finite number (Number.isFinite). -/
def JsNumber.isFiniteNumber : JsNumber → Bool
  | .finite _ => true
  | _ => false

/-- Whether the conversion result is an integer (Number.isInteger). -/
def JsNumber.isIntegerValued : JsNumber → Bool
  | .finite q => q.den = 1
  | _ => false

/-- Apply a decimal exponent to a parsed mantissa. -/
def applyExponent (base : ℚ) (negative : Bool) (e : Nat) : ℚ :=
  if negative then base / 10 ^ e else base * 10 ^ e

/-- Parse the exponent suffix of a JS decimal literal; the digit list must
exhaust the input. -/
def parseExponentDigits (ds : List Char) (base : ℚ) (negative : Bool) : Option ℚ :=
  if ds.isEmpty || !ds.all isDecDigit then none
  else some (applyExponent base negative (decDigitsVal ds))

/-- Parse an optional exponent part after the mantissa of a decimal literal. -/
def parseExponentPart (cs : List Char) (base : ℚ) : Option ℚ :=
  match cs with
  | [] => some base
  | c :: rest =>
    if c = 'e' || c = 'E' then
      match rest with
      | '+' :: ds => parseExponentDigits ds base false
      | '-' :: ds => parseExponentDigits ds base true
      | ds => parseExponentDigits ds base false
    else none

/-- Mantissa value of integer digits followed by fraction digits. -/
def decMantissa (intDigits fracDigits : List Char) : ℚ :=
  (decDigitsVal intDigits : ℚ) + (decDigitsVal fracDigits : ℚ) / 10 ^ fracDigits.length

/-- Parse an unsigned JS decimal literal (digits, optional fraction, optional
exponent); the whole input must be consumed. -/
def parseDecimalBody (cs : List Char) : Option ℚ :=
  let p := cs.span isDecDigit
  match p.2 with
  | '.' :: rest2 =>
    let q := rest2.span isDecDigit
    if p.1.isEmpty && q.1.isEmpty then none
    else parseExponentPart q.2 (decMantissa p.1 q.1)
  | _ =>
    if p.1.isEmpty then none
    else parseExponentPart p.2 (decDigitsVal p.1 : ℚ)

/-- Parse a radix-prefixed JS numeric literal body (after 0x, 0o or 0b). -/
def parseRadixBody (cs : List Char) (digitTest : Char → Bool) (digitValue : Char → Nat)
    (radix : Nat) : JsNumber :=
  if cs.isEmpty || !cs.all digitTest then .nan
  else .finite (cs.foldl (fun a c => radix * a + digitValue c) 0 : ℚ)

/-- Parse an unsigned decimal literal or the Infinity keyword. -/
def jsDecimalOrInfinity (cs : List Char) (negative : Bool) : JsNumber :=
  if cs = "Infinity".data then .infinite negative
  else
    match parseDecimalBody cs with
    | some q => .finite (if negative then -q else q)
    | none => .nan

/-- Model of the JS Number(string) conversion: trim, empty means zero, an
optional sign before a decimal literal or Infinity, radix-prefixed forms
without a sign, anything else is NaN. -/
def jsStringToNumber (cs : List Char) : JsNumber :=
  match trimChars cs with
  | [] => .finite 0
  | '+' :: rest => jsDecimalOrInfinity rest false
  | '-' :: rest => jsDecimalOrInfinity rest true
  | '0' :: 'x' :: rest => parseRadixBody rest isHexDigit hexDigitVal 16
  | '0' :: 'X' :: rest => parseRadixBody rest isHexDigit hexDigitVal 16
  | '0' :: 'o' :: rest => parseRadixBody rest isOctDigit decDigitVal 8
  | '0' :: 'O' :: rest => parseRadixBody rest isOctDigit decDigitVal 8
  | '0' :: 'b' :: rest => parseRadixBody rest isBinDigit decDigitVal 2
  | '0' :: 'B' :: rest => parseRadixBody rest isBinDigit decDigitVal 2
  | t => jsDecimalOrInfinity t false

/-- Recognised logger method names (LOGGER_METHODS in the source). -/
def LOGGER_METHODS : List String := ["action", "debug", "error", "info", "warn"]

/-- JSON primitive type names (JSON_PRIMITIVE_NAMES in the source). -/
def JSON_PRIMITIVE_NAMES : List String :=
  ["boolean", "false", "null", "number", "string", "true"]

/-- Denylisted non-serializable type names (NON_SERIALIZABLE_TYPE_NAMES). -/
def NON_SERIALIZABLE_TYPE_NAMES : List String :=
  ["bigint", "Date", "Function", "Map", "Promise", "RegExp", "Set", "symbol",
   "unique symbol", "WeakMap", "WeakSet"]

/-- JSON literal keyword names (JSON_LITERAL_PRIMITIVE_NAMES). -/
def JSON_LITERAL_PRIMITIVE_NAMES : List String :=
  ["false", "null", "true", "undefined"]

/-- Mirrors isStringLiteralTypeName: at least two characters, starting and
ending with a double quote. -/
def isStringLiteralTypeName (typeName : String) : Bool :=
  typeName.data.length ≥ 2 &&
  typeName.data.head? = some '"' &&
  typeName.data.getLast? = some '"'

/-- Mirrors isNumericLiteralTypeName: nonempty, not Infinity or NaN, and
Number.isFinite(Number(typeName)). -/
def isNumericLiteralTypeName (typeName : String) : Bool :=
  if typeName.data.length = 0 || typeName = "Infinity" || typeName = "NaN" then false
  else (jsStringToNumber typeName.data).isFiniteNumber

/-- Mirrors isBigIntLiteralTypeName: ends with the character n, has length
above one, and the prefix before that n converts to an integer. -/
def isBigIntLiteralTypeName (typeName : String) : Bool :=
  if typeName.data.getLast? ≠ some 'n' || typeName.data.length ≤ 1 then false
  else (jsStringToNumber typeName.data.dropLast).isIntegerValued

/-- Word character of the regular expression class backslash-w. -/
def isWordChar (c : Char) : Bool :=
  ('A' ≤ c && c ≤ 'Z') || ('a' ≤ c && c ≤ 'z') || ('0' ≤ c && c ≤ '9') || c = '_'

/-- Mirrors isLikelyTypeParameterName, the test of the anchored regular
expression matching an uppercase letter followed by word characters. -/
def isLikelyTypeParameterName (typeName : String) : Bool :=
  match typeName.data with
  | [] => false
  | c :: rest => ('A' ≤ c && c ≤ 'Z') && rest.all isWordChar

/-- The first banning condition of isJsonSerializableType: a denylisted name
or a bigint literal rendering. -/
def isDeniedTypeName (typeName : String) : Bool :=
  NON_SERIALIZABLE_TYPE_NAMES.contains typeName || isBigIntLiteralTypeName typeName

/-- The escape-hatch condition: any, never, unknown, or a name shaped like a
type parameter. -/
def isEscapeTypeName (typeName : String) : Bool :=
  typeName == "any" || typeName == "never" || typeName == "unknown" ||
  isLikelyTypeParameterName typeName

/-- The literal-name condition: JSON literal keywords, quoted string literal
renderings, finite numeric literal renderings. -/
def isLiteralTypeName (typeName : String) : Bool :=
  JSON_LITERAL_PRIMITIVE_NAMES.contains typeName ||
  isStringLiteralTypeName typeName || isNumericLiteralTypeName typeName

/-- The scalar primitive condition. -/
def isPrimitiveTypeName (typeName : String) : Bool :=
  JSON_PRIMITIVE_NAMES.contains typeName

/-- A property symbol of a type: its name and, when the symbol has a value
declaration, the type obtained by checker.getTypeOfSymbolAtLocation at that
declaration (propType is none exactly when valueDeclaration is absent). -/
structure PropertyInfo where
  name : String
  propType : Option Nat
deriving DecidableEq, Repr

/-- Which structural dispatch of the source fires for a type: isUnion,
isIntersection, checker.isTupleType, checker.isArrayType (with its
checker.getTypeArguments list), or none of those (plain). -/
inductive TypeForm where
  | union (members : List Nat)
  | intersection (members : List Nat)
  | tuple (typeArguments : List Nat)
  | array (typeArguments : List Nat)
  | plain
deriving DecidableEq, Repr

/-- A type descriptor: the checker.typeToString rendering, the structural
form, the numbers of call and construct signatures, the string index type
and the list of properties.  Descriptors are identified by graph ids, so a
self-referential type is a node whose children point back to it. -/
structure TypeNode where
  name : String
  form : TypeForm
  callSignatures : Nat
  constructSignatures : Nat
  stringIndexType : Option Nat
  properties : List PropertyInfo
deriving DecidableEq, Repr

/-- The finite graph of type descriptors reachable in one lint query. -/
abbrev TypeGraph := List (Nat × TypeNode)

/-- Resolve a descriptor id in the graph. -/
def lookupNode : TypeGraph → Nat → Option TypeNode
  | [], _ => none
  | (k, n) :: rest, t => if k = t then some n else lookupNode rest t

/-- Model of Array.prototype.every over member types as used by the union,
intersection and tuple branches: the shared visited set is threaded through
the recursive calls and evaluation stops at the first false. -/
def everyThread (f : Nat → List Nat → Option (Bool × List Nat)) :
    List Nat → List Nat → Option (Bool × List Nat)
  | [], seen => some (true, seen)
  | t :: rest, seen =>
    match f t seen with
    | none => none
    | some (b, s) => if b then everyThread f rest s else some (false, s)

/-- Model of the Array.prototype.every loop over property symbols: a symbol
without a value declaration counts as serializable, otherwise its resolved
type is classified with the shared visited set. -/
def everyPropThread (f : Nat → List Nat → Option (Bool × List Nat)) :
    List PropertyInfo → List Nat → Option (Bool × List Nat)
  | [], seen => some (true, seen)
  | p :: rest, seen =>
    match p.propType with
    | none => everyPropThread f rest seen
    | some pt =>
      match f pt seen with
      | none => none
      | some (b, s) => if b then everyPropThread f rest s else some (false, s)

/-- Fuel-indexed embedding of isJsonSerializableType.  The branches follow
the source in order: the visited-set cycle break, recording the type as
visited, the denylist and bigint-literal ban, the any/never/unknown and
type-parameter escape, literal names, primitive names, union, intersection,
tuple, array, call or construct signatures, string index signature, the
empty-property rejection (the name of the empty object literal type is
written with escaped braces), and the property loop.  The result pairs the
verdict with the final visited set; none is returned only on fuel
exhaustion, which the fuel bound proved below rules out. -/
def classify (g : TypeGraph) : Nat → Nat → List Nat → Option (Bool × List Nat)
  | 0, _, _ => none
  | fuel + 1, t, seen =>
    if t ∈ seen then some (true, seen) else
    let seen1 := t :: seen
    match lookupNode g t with
    | none => some (true, seen1)
    | some node =>
      let typeName := jsTrim node.name
      if isDeniedTypeName typeName then some (false, seen1)
      else if isEscapeTypeName typeName then some (true, seen1)
      else if isLiteralTypeName typeName then some (true, seen1)
      else if isPrimitiveTypeName typeName then some (true, seen1)
      else
        match node.form with
        | .union members => everyThread (fun u s => classify g fuel u s) members seen1
        | .intersection members => everyThread (fun u s => classify g fuel u s) members seen1
        | .tuple typeArguments => everyThread (fun u s => classify g fuel u s) typeArguments seen1
        | .array typeArguments =>
          match typeArguments.head? with
          | none => some (true, seen1)
          | some elementType => classify g fuel elementType seen1
        | .plain =>
          if node.callSignatures > 0 || node.constructSignatures > 0 then some (false, seen1)
          else
            match node.stringIndexType with
            | some stringIndexType => classify g fuel stringIndexType seen1
            | none =>
              if node.properties.length = 0 && typeName != "\x7b\x7d" then some (false, seen1)
              else everyPropThread (fun u s => classify g fuel u s) node.properties seen1

/-- Fuel sufficient for any classification over the graph: one more than the
number of graph entries. -/
def fuelBound (g : TypeGraph) : Nat := g.length + 1

/-- Top-level isJsonSerializableType with its default fresh visited set; the
fuel-exhaustion branch is unreachable by the sufficiency theorem below. -/
def isJsonSerializableType (g : TypeGraph) (t : Nat) : Bool :=
  match classify g (fuelBound g) t [] with
  | some (b, _) => b
  | none => true

/-- Syntactic kind of a call argument expression, as reported by the field
arg.type of the ESTree node. -/
inductive ArgKind where
  | spreadElement
  | arrayExpression
  | literal
  | objectExpression
  | templateLiteral
  | identifier
  | otherExpression
deriving DecidableEq, Repr

/-- A call argument: its syntactic kind and the id of the type descriptor
that checker.getTypeAtLocation resolves for it. -/
structure CallArg where
  kind : ArgKind
  typeId : Nat
deriving DecidableEq, Repr

/-- The property part of a member-expression callee: either an identifier
with a name or some other expression form. -/
inductive CalleeProperty where
  | ident (name : String)
  | nonIdent
deriving DecidableEq, Repr

/-- The callee of a call expression: a member expression (with its computed
flag and property) or any other expression form. -/
inductive Callee where
  | member (computed : Bool) (property : CalleeProperty)
  | nonMember
deriving DecidableEq, Repr

/-- A call expression node: its callee and argument list. -/
structure CallExpr where
  callee : Callee
  arguments : List CallArg
deriving DecidableEq, Repr

/-- Mirrors getLoggerMethod: the callee must be a non-computed member
expression whose property is an identifier naming a recognised logger
method. -/
def getLoggerMethod : Callee → Option String
  | .member computed property =>
    if computed then none
    else
      match property with
      | .ident propertyName =>
        if LOGGER_METHODS.contains propertyName then some propertyName else none
      | .nonIdent => none
  | .nonMember => none

/-- Mirrors isContextLiteralExpression: spread elements are rejected, then
only array, literal, object and template expressions are accepted. -/
def isContextLiteralExpression (arg : CallArg) : Bool :=
  if arg.kind = .spreadElement then false
  else
    arg.kind = .arrayExpression ||
    arg.kind = .literal ||
    arg.kind = .objectExpression ||
    arg.kind = .templateLiteral

/-- Mirrors getContextArgumentForMethod: the context argument sits at index
2 for the error method and index 1 otherwise, and is returned only when it
exists and is literal shaped. -/
def getContextArgumentForMethod (loggerMethod : String) (callExpression : CallExpr) :
    Option CallArg :=
  let targetIndex := if loggerMethod = "error" then 2 else 1
  match callExpression.arguments[targetIndex]? with
  | none => none
  | some candidate =>
    if isContextLiteralExpression candidate then some candidate else none

/-- The call-site selector of the specification: the gating of the
CallExpression visitor (recognised method, at least two arguments) composed
with getContextArgumentForMethod. -/
def selectContextArgument (callExpression : CallExpr) : Option CallArg :=
  match getLoggerMethod callExpression.callee with
  | none => none
  | some loggerMethod =>
    if callExpression.arguments.length < 2 then none
    else getContextArgumentForMethod loggerMethod callExpression

/-- A diagnostic of the rule: the offending method name and the context
argument node the report is anchored at. -/
structure Report where
  method : String
  node : CallArg
deriving DecidableEq, Repr

/-- Mirrors the CallExpression visitor of the rule: resolve the logger
method, require at least two arguments, select the context argument,
resolve and classify its type, and report exactly when the verdict is not
serializable. -/
def checkCallExpression (g : TypeGraph) (node : CallExpr) : Option Report :=
  match getLoggerMethod node.callee with
  | none => none
  | some loggerMethod =>
    if node.arguments.length < 2 then none
    else
      match getContextArgumentForMethod loggerMethod node with
      | none => none
      | some contextArg =>
        if isJsonSerializableType g contextArg.typeId then none
        else some { method := loggerMethod, node := contextArg }

/-- The keys of a type graph. -/
def graphKeys (g : TypeGraph) : List Nat := g.map Prod.fst

/-- Number of graph keys outside the visited set: the measure that shrinks
whenever the predicate records a new type, bounding the recursion. -/
def keysLeft (g : TypeGraph) (seen : List Nat) : Nat :=
  ((graphKeys g).filter (fun k => decide (k ∉ seen))).length

/-- The ids a node hands to recursive classification calls, following the
branch order of the predicate: nothing when a name rule settles the node,
the members of a union, intersection or tuple, the first type argument of
an array, the string index type, or the resolved property types. -/
def nodeChildren (n : TypeNode) : List Nat :=
  let typeName := jsTrim n.name
  if isDeniedTypeName typeName || isEscapeTypeName typeName ||
     isLiteralTypeName typeName || isPrimitiveTypeName typeName then []
  else
    match n.form with
    | .union members => members
    | .intersection members => members
    | .tuple typeArguments => typeArguments
    | .array typeArguments => typeArguments.take 1
    | .plain =>
      if n.callSignatures > 0 || n.constructSignatures > 0 then []
      else
        match n.stringIndexType with
        | some stringIndexType => [stringIndexType]
        | none => n.properties.filterMap (fun p => p.propType)

/-- Whether a node avoids every immediately failing branch of the
predicate: not denylisted, and when no name rule fires and the form is
plain, no call or construct signature and, without a string index, either a
property or the empty-object-literal rendering. -/
def nodeGood (n : TypeNode) : Bool :=
  let typeName := jsTrim n.name
  if isDeniedTypeName typeName then false
  else if isEscapeTypeName typeName || isLiteralTypeName typeName ||
          isPrimitiveTypeName typeName then true
  else
    match n.form with
    | .plain =>
      if n.callSignatures > 0 || n.constructSignatures > 0 then false
      else
        match n.stringIndexType with
        | some _ => true
        | none => !(n.properties.length = 0 && typeName != "\x7b\x7d")
    | _ => true

/-- nodeChildren lifted to graph ids; an unresolvable id has no children. -/
def idChildren (g : TypeGraph) (t : Nat) : List Nat :=
  (lookupNode g t).elim [] nodeChildren

/-- nodeGood lifted to graph ids; an unresolvable id is vacuously good. -/
def idGood (g : TypeGraph) (t : Nat) : Bool :=
  (lookupNode g t).elim true nodeGood

/-- An invariant set for one classification pass started with visited set S:
every member is either already visited or a good node all of whose children
stay in the set.  The characterization theorems below show the predicate
returns true exactly when the queried id lies in such a set. -/
def ClosedOver (g : TypeGraph) (S B : List Nat) : Prop :=
  ∀ u ∈ B, u ∈ S ∨ (idGood g u = true ∧ ∀ c ∈ idChildren g u, c ∈ B)

/-- Value shapes the specification calls non-serializable for the
containment property: the Date, Map, Set, RegExp and Promise built-ins, a
function value (a type carrying call or construct signatures) and
arbitrary-precision integers (the bigint keyword or a bigint literal). -/
def specBadValueNode (n : TypeNode) : Bool :=
  (["Date", "Map", "Set", "RegExp", "Promise", "bigint"] : List String).contains
      (jsTrim n.name) ||
  isBigIntLiteralTypeName (jsTrim n.name) ||
  n.callSignatures > 0 || n.constructSignatures > 0

/-- Every structural reference of a node, regardless of the name rules:
union, intersection, tuple and array members, the string index type and all
resolved property types.  Used to express containment anywhere in the
structure of a type, in the words of the specification. -/
def nodeRefs (n : TypeNode) : List Nat :=
  (match n.form with
   | .union members => members
   | .intersection members => members
   | .tuple typeArguments => typeArguments
   | .array typeArguments => typeArguments
   | .plain => []) ++
  (match n.stringIndexType with
   | some stringIndexType => [stringIndexType]
   | none => []) ++
  n.properties.filterMap (fun p => p.propType)

/-- Containment, written from the claim: the type itself is one of the
listed non-serializable value shapes, or some structural reference leads to
one. -/
inductive ContainsNonSerializableValue (g : TypeGraph) : Nat → Prop where
  | here {t : Nat} {n : TypeNode} :
      lookupNode g t = some n → specBadValueNode n = true →
      ContainsNonSerializableValue g t
  | via {t : Nat} {n : TypeNode} {u : Nat} :
      lookupNode g t = some n → u ∈ nodeRefs n →
      ContainsNonSerializableValue g u → ContainsNonSerializableValue g t

/-- Example graph: an object literal type whose properties are a string and
a number, as for logger.debug("x", with an object of two scalar fields). -/
def exGraphPrimObject : TypeGraph :=
  [(0, { name := "\x7b status: string; attempt: number; \x7d", form := .plain,
         callSignatures := 0, constructSignatures := 0, stringIndexType := none,
         properties := [{ name := "status", propType := some 1 },
                        { name := "attempt", propType := some 2 }] }),
   (1, { name := "string", form := .plain, callSignatures := 0,
         constructSignatures := 0, stringIndexType := none, properties := [] }),
   (2, { name := "number", form := .plain, callSignatures := 0,
         constructSignatures := 0, stringIndexType := none, properties := [] })]

/-- The matching call: logger.debug(message, object literal). -/
def exCallPrimObject : CallExpr :=
  { callee := .member false (.ident "debug"),
    arguments := [{ kind := .literal, typeId := 1 },
                  { kind := .objectExpression, typeId := 0 }] }

/-- Example graph: an object literal type holding a capitalized interface
which in turn holds a Date, so a Date occurs in the structure but behind a
type-parameter-like name. -/
def exGraphDeepDate : TypeGraph :=
  [(0, { name := "\x7b d: Foo; \x7d", form := .plain, callSignatures := 0,
         constructSignatures := 0, stringIndexType := none,
         properties := [{ name := "d", propType := some 1 }] }),
   (1, { name := "Foo", form := .plain, callSignatures := 0,
         constructSignatures := 0, stringIndexType := none,
         properties := [{ name := "x", propType := some 2 }] }),
   (2, { name := "Date", form := .plain, callSignatures := 0,
         constructSignatures := 0, stringIndexType := none, properties := [] })]

/-- The matching call: logger.debug(message, object literal of type
exGraphDeepDate node zero). -/
def exCallDeepDate : CallExpr :=
  { callee := .member false (.ident "debug"),
    arguments := [{ kind := .literal, typeId := 3 },
                  { kind := .objectExpression, typeId := 0 }] }

/-- Example graph: a bigint literal type, as for logger.debug("x", 10n). -/
def exGraphBigIntLit : TypeGraph :=
  [(0, { name := "10n", form := .plain, callSignatures := 0,
         constructSignatures := 0, stringIndexType := none, properties := [] })]

/-- The matching call with the bigint literal in the context slot. -/
def exCallBigIntLit : CallExpr :=
  { callee := .member false (.ident "debug"),
    arguments := [{ kind := .literal, typeId := 1 },
                  { kind := .literal, typeId := 0 }] }

/-- Example graph for logger.error("x", err, with cause err): the object
literal type of the context argument, the Error type of its property and
the string type of the Error members. -/
def exGraphErrorCause : TypeGraph :=
  [(0, { name := "\x7b cause: Error; \x7d", form := .plain, callSignatures := 0,
         constructSignatures := 0, stringIndexType := none,
         properties := [{ name := "cause", propType := some 1 }] }),
   (1, { name := "Error", form := .plain, callSignatures := 0,
         constructSignatures := 0, stringIndexType := none,
         properties := [{ name := "message", propType := some 2 },
                        { name := "name", propType := some 2 }] }),
   (2, { name := "string", form := .plain, callSignatures := 0,
         constructSignatures := 0, stringIndexType := none, properties := [] })]

/-- The matching call: logger.error(message, error object, context). -/
def exCallErrorCause : CallExpr :=
  { callee := .member false (.ident "error"),
    arguments := [{ kind := .literal, typeId := 2 },
                  { kind := .identifier, typeId := 1 },
                  { kind := .objectExpression, typeId := 0 }] }

/-- Example graph: a union type whose rendering is an alias name shaped
like a type parameter, with a Date member. -/
def exGraphAliasUnion : TypeGraph :=
  [(0, { name := "U", form := .union [1], callSignatures := 0,
         constructSignatures := 0, stringIndexType := none, properties := [] }),
   (1, { name := "Date", form := .plain, callSignatures := 0,
         constructSignatures := 0, stringIndexType := none, properties := [] })]

/-- Example graph: a self-referential structural type (a node whose next
property is the node type itself) beside a number type. -/
def exGraphSelfRef : TypeGraph :=
  [(0, { name := "\x7b value: number; next: ...; \x7d", form := .plain,
         callSignatures := 0, constructSignatures := 0, stringIndexType := none,
         properties := [{ name := "value", propType := some 1 },
                        { name := "next", propType := some 0 }] }),
   (1, { name := "number", form := .plain, callSignatures := 0,
         constructSignatures := 0, stringIndexType := none, properties := [] })]

/-- Example graph: the unknown type. -/
def exGraphUnknown : TypeGraph :=
  [(0, { name := "unknown", form := .plain, callSignatures := 0,
         constructSignatures := 0, stringIndexType := none, properties := [] })]

/-- Example graph: an array type with no resolvable type argument. -/
def exGraphEmptyArray : TypeGraph :=
  [(0, { name := "x[]", form := .array [], callSignatures := 0,
         constructSignatures := 0, stringIndexType := none, properties := [] })]

/-- Example graph: an object type whose only property symbol has no value
declaration. -/
def exGraphNoDecl : TypeGraph :=
  [(0, { name := "\x7b y: unresolved; \x7d", form := .plain, callSignatures := 0,
         constructSignatures := 0, stringIndexType := none,
         properties := [{ name := "y", propType := none }] })]

/-- Example graph: a string-indexed dictionary type whose index value type
is number, carrying a named property of type Date that the predicate never
inspects. -/
def exGraphStringIndex : TypeGraph :=
  [(0, { name := "\x7b [key: string]: number; \x7d", form := .plain,
         callSignatures := 0, constructSignatures := 0, stringIndexType := some 1,
         properties := [{ name := "stamp", propType := some 2 }] }),
   (1, { name := "number", form := .plain, callSignatures := 0,
         constructSignatures := 0, stringIndexType := none, properties := [] }),
   (2, { name := "Date", form := .plain, callSignatures := 0,
         constructSignatures := 0, stringIndexType := none, properties := [] })]

/-- Example graph: a union type printed structurally, with string and
number members. -/
def exGraphPlainUnion : TypeGraph :=
  [(0, { name := "string | number", form := .union [1, 2], callSignatures := 0,
         constructSignatures := 0, stringIndexType := none, properties := [] }),
   (1, { name := "string", form := .plain, callSignatures := 0,
         constructSignatures := 0, stringIndexType := none, properties := [] }),
   (2, { name := "number", form := .plain, callSignatures := 0,
         constructSignatures := 0, stringIndexType := none, properties := [] })]

/-- A successful lookup places the id among the graph keys. -/
theorem lookupNode_mem_keys {g : TypeGraph} {t : Nat} {n : TypeNode}
    (h : lookupNode g t = some n) : t ∈ graphKeys g := by
  induction g with
  | nil => simp [lookupNode] at h
  | cons entry rest ih =>
    obtain ⟨k, m⟩ := entry
    rw [lookupNode] at h
    by_cases hk : k = t
    · subst hk
      exact List.mem_cons_self _ _
    · rw [if_neg hk] at h
      exact List.mem_cons_of_mem _ (ih h)

/-- Filtering with a stronger predicate cannot keep more elements. -/
theorem length_filter_le_filter {l : List Nat} {p q : Nat → Bool}
    (hpq : ∀ x, p x = true → q x = true) :
    (l.filter p).length ≤ (l.filter q).length := by
  induction l with
  | nil => simp
  | cons x xs ih =>
    by_cases hp : p x = true
    · rw [List.filter_cons_of_pos hp, List.filter_cons_of_pos (hpq x hp)]
      simpa using ih
    · rw [List.filter_cons_of_neg (by simpa using hp)]
      by_cases hq : q x = true
      · rw [List.filter_cons_of_pos hq]
        exact ih.trans (Nat.le_succ _)
      · rw [List.filter_cons_of_neg (by simpa using hq)]
        exact ih

/-- Filtering with a strictly stronger predicate on a present witness keeps
strictly fewer elements. -/
theorem length_filter_lt_filter {l : List Nat} {p q : Nat → Bool}
    (hpq : ∀ x, p x = true → q x = true) {a : Nat} (ha : a ∈ l)
    (hpa : p a = false) (hqa : q a = true) :
    (l.filter p).length < (l.filter q).length := by
  induction l with
  | nil => cases ha
  | cons x xs ih =>
    rcases List.mem_cons.mp ha with rfl | hmem
    · rw [List.filter_cons_of_neg (by simp [hpa]), List.filter_cons_of_pos hqa]
      exact Nat.lt_succ_of_le (length_filter_le_filter hpq)
    · by_cases hp : p x = true
      · rw [List.filter_cons_of_pos hp, List.filter_cons_of_pos (hpq x hp)]
        simpa using ih hmem
      · rw [List.filter_cons_of_neg (by simpa using hp)]
        by_cases hq : q x = true
        · rw [List.filter_cons_of_pos hq]
          exact (ih hmem).trans (Nat.lt_succ_self _)
        · rw [List.filter_cons_of_neg (by simpa using hq)]
          exact ih hmem

/-- Growing the visited set cannot increase the measure. -/
theorem keysLeft_mono {g : TypeGraph} {seen seen' : List Nat}
    (h : seen ⊆ seen') : keysLeft g seen' ≤ keysLeft g seen := by
  refine length_filter_le_filter ?_
  intro x hx
  simp only [decide_eq_true_eq] at hx ⊢
  intro hmem
  exact hx (h hmem)

/-- Recording one more type cannot increase the measure. -/
theorem keysLeft_cons_le {g : TypeGraph} {t : Nat} {seen : List Nat} :
    keysLeft g (t :: seen) ≤ keysLeft g seen :=
  keysLeft_mono (List.subset_cons_self _ _)

/-- Recording an unvisited graph key strictly shrinks the measure. -/
theorem keysLeft_cons_lt {g : TypeGraph} {t : Nat} {seen : List Nat}
    (hmem : t ∈ graphKeys g) (hseen : t ∉ seen) :
    keysLeft g (t :: seen) < keysLeft g seen := by
  refine length_filter_lt_filter ?_ hmem ?_ ?_
  · intro x hx
    simp only [decide_eq_true_eq] at hx ⊢
    intro hmemx
    exact hx (List.mem_cons_of_mem _ hmemx)
  · simp
  · simpa using hseen

/-- The measure of a fresh visited set is below the fuel bound. -/
theorem keysLeft_nil_lt_fuelBound (g : TypeGraph) : keysLeft g [] < fuelBound g := by
  have h1 : keysLeft g [] ≤ (graphKeys g).length := List.length_filter_le _ _
  have h2 : (graphKeys g).length = g.length := List.length_map _ _
  have : keysLeft g [] ≤ g.length := by omega
  simpa [fuelBound] using Nat.lt_succ_of_le this

/-- everyThread under the one-step specification: the loop returns, the
visited set grows monotonically and the measure does not increase. -/
theorem everyThread_spec {g : TypeGraph} {fuel : Nat}
    {f : Nat → List Nat → Option (Bool × List Nat)}
    (hf : ∀ u seen, keysLeft g seen < fuel →
      ∃ b s, f u seen = some (b, s) ∧ seen ⊆ s ∧ keysLeft g s ≤ keysLeft g seen) :
    ∀ ts seen, keysLeft g seen < fuel →
      ∃ b s, everyThread f ts seen = some (b, s) ∧ seen ⊆ s ∧
        keysLeft g s ≤ keysLeft g seen := by
  intro ts
  induction ts with
  | nil =>
    intro seen h
    exact ⟨true, seen, rfl, List.Subset.refl _, Nat.le_refl _⟩
  | cons t rest ih =>
    intro seen h
    obtain ⟨b, s, hf1, hsub, hk⟩ := hf t seen h
    cases b with
    | false => exact ⟨false, s, by simp [everyThread, hf1], hsub, hk⟩
    | true =>
      obtain ⟨b2, s2, h2, hsub2, hk2⟩ := ih s (Nat.lt_of_le_of_lt hk h)
      exact ⟨b2, s2, by simp [everyThread, hf1, h2], hsub.trans hsub2, hk2.trans hk⟩

/-- everyPropThread under the one-step specification. -/
theorem everyPropThread_spec {g : TypeGraph} {fuel : Nat}
    {f : Nat → List Nat → Option (Bool × List Nat)}
    (hf : ∀ u seen, keysLeft g seen < fuel →
      ∃ b s, f u seen = some (b, s) ∧ seen ⊆ s ∧ keysLeft g s ≤ keysLeft g seen) :
    ∀ ps seen, keysLeft g seen < fuel →
      ∃ b s, everyPropThread f ps seen = some (b, s) ∧ seen ⊆ s ∧
        keysLeft g s ≤ keysLeft g seen := by
  intro ps
  induction ps with
  | nil =>
    intro seen h
    exact ⟨true, seen, rfl, List.Subset.refl _, Nat.le_refl _⟩
  | cons p rest ih =>
    intro seen h
    cases hp : p.propType with
    | none =>
      obtain ⟨b2, s2, h2, hsub2, hk2⟩ := ih seen h
      exact ⟨b2, s2, by simp [everyPropThread, hp, h2], hsub2, hk2⟩
    | some pt =>
      obtain ⟨b, s, hf1, hsub, hk⟩ := hf pt seen h
      cases b with
      | false => exact ⟨false, s, by simp [everyPropThread, hp, hf1], hsub, hk⟩
      | true =>
        obtain ⟨b2, s2, h2, hsub2, hk2⟩ := ih s (Nat.lt_of_le_of_lt hk h)
        exact ⟨b2, s2, by simp [everyPropThread, hp, hf1, h2], hsub.trans hsub2,
          hk2.trans hk⟩

/-- Fuel sufficiency for the classification: whenever the fuel exceeds the
number of unvisited graph keys the call returns a verdict, the visited set
only grows, and the measure does not increase.  Each recursive invocation
either stops on an already visited id or records a fresh graph key first,
so the measure strictly shrinks before any deeper call. -/
theorem classify_spec (g : TypeGraph) :
    ∀ fuel t seen, keysLeft g seen < fuel →
      ∃ b s, classify g fuel t seen = some (b, s) ∧ seen ⊆ s ∧
        keysLeft g s ≤ keysLeft g seen := by
  intro fuel
  induction fuel with
  | zero => intro t seen h; omega
  | succ n ih =>
    intro t seen h
    by_cases hseen : t ∈ seen
    · exact ⟨true, seen, by simp [classify, hseen], List.Subset.refl _, Nat.le_refl _⟩
    · have hsub1 : seen ⊆ t :: seen := List.subset_cons_self _ _
      cases hlook : lookupNode g t with
      | none =>
        exact ⟨true, t :: seen, by simp [classify, hseen, hlook], hsub1, keysLeft_cons_le⟩
      | some node =>
        have hlt : keysLeft g (t :: seen) < keysLeft g seen :=
          keysLeft_cons_lt (lookupNode_mem_keys hlook) hseen
        have hn : keysLeft g (t :: seen) < n := by omega
        by_cases hd : isDeniedTypeName (jsTrim node.name) = true
        · exact ⟨false, t :: seen, by simp [classify, hseen, hlook, hd], hsub1,
            keysLeft_cons_le⟩
        · by_cases he : isEscapeTypeName (jsTrim node.name) = true
          · exact ⟨true, t :: seen, by simp [classify, hseen, hlook, hd, he], hsub1,
              keysLeft_cons_le⟩
          · by_cases hl : isLiteralTypeName (jsTrim node.name) = true
            · exact ⟨true, t :: seen, by simp [classify, hseen, hlook, hd, he, hl], hsub1,
                keysLeft_cons_le⟩
            · by_cases hp : isPrimitiveTypeName (jsTrim node.name) = true
              · exact ⟨true, t :: seen, by simp [classify, hseen, hlook, hd, he, hl, hp],
                  hsub1, keysLeft_cons_le⟩
              · cases hform : node.form with
                | union members =>
                  obtain ⟨b, s, hev, hsub, hk⟩ := everyThread_spec ih members (t :: seen) hn
                  exact ⟨b, s, by simp [classify, hseen, hlook, hd, he, hl, hp, hform, hev],
                    hsub1.trans hsub, hk.trans keysLeft_cons_le⟩
                | intersection members =>
                  obtain ⟨b, s, hev, hsub, hk⟩ := everyThread_spec ih members (t :: seen) hn
                  exact ⟨b, s, by simp [classify, hseen, hlook, hd, he, hl, hp, hform, hev],
                    hsub1.trans hsub, hk.trans keysLeft_cons_le⟩
                | tuple typeArguments =>
                  obtain ⟨b, s, hev, hsub, hk⟩ :=
                    everyThread_spec ih typeArguments (t :: seen) hn
                  exact ⟨b, s, by simp [classify, hseen, hlook, hd, he, hl, hp, hform, hev],
                    hsub1.trans hsub, hk.trans keysLeft_cons_le⟩
                | array typeArguments =>
                  cases hhead : typeArguments.head? with
                  | none =>
                    exact ⟨true, t :: seen,
                      by simp [classify, hseen, hlook, hd, he, hl, hp, hform, hhead], hsub1,
                      keysLeft_cons_le⟩
                  | some elementType =>
                    obtain ⟨b, s, hev, hsub, hk⟩ := ih elementType (t :: seen) hn
                    exact ⟨b, s,
                      by simp [classify, hseen, hlook, hd, he, hl, hp, hform, hhead, hev],
                      hsub1.trans hsub, hk.trans keysLeft_cons_le⟩
                | plain =>
                  by_cases hsig : (node.callSignatures > 0 || node.constructSignatures > 0) = true
                  · exact ⟨false, t :: seen,
                      by simp [classify, hseen, hlook, hd, he, hl, hp, hform, hsig], hsub1,
                      keysLeft_cons_le⟩
                  · cases hidx : node.stringIndexType with
                    | some stringIndexType =>
                      obtain ⟨b, s, hev, hsub, hk⟩ := ih stringIndexType (t :: seen) hn
                      exact ⟨b, s,
                        by simp [classify, hseen, hlook, hd, he, hl, hp, hform, hsig, hidx, hev],
                        hsub1.trans hsub, hk.trans keysLeft_cons_le⟩
                    | none =>
                      by_cases hemp :
                          (node.properties.length = 0 && jsTrim node.name != "\x7b\x7d") = true
                      · refine ⟨false, t :: seen, ?_, hsub1, keysLeft_cons_le⟩
                        simp only [Bool.and_eq_true, decide_eq_true_eq, bne_iff_ne,
                          ne_eq] at hemp
                        simp [classify, hseen, hlook, hd, he, hl, hp, hform, hsig, hidx]
                        intro h2
                        exact absurd (h2 (List.length_eq_zero.mp hemp.1)) hemp.2
                      · obtain ⟨b, s, hev, hsub, hk⟩ :=
                          everyPropThread_spec ih node.properties (t :: seen) hn
                        refine ⟨b, s, ?_, hsub1.trans hsub, hk.trans keysLeft_cons_le⟩
                        simp only [Bool.and_eq_true, decide_eq_true_eq, bne_iff_ne, ne_eq,
                          not_and, not_not] at hemp
                        simp [classify, hseen, hlook, hd, he, hl, hp, hform, hsig, hidx, hev]
                        intro h2 h3
                        exact absurd (hemp (by simp [h2]) ) h3


/-- Weakening a closed set along growth of the visited set. -/
theorem ClosedOver.mono_left {g : TypeGraph} {S S' B : List Nat}
    (hS : S ⊆ S') (h : ClosedOver g S B) : ClosedOver g S' B := by
  intro u hu
  rcases h u hu with hmem | hgood
  · exact Or.inl (hS hmem)
  · exact Or.inr hgood

/-- The visited set itself is closed over itself. -/
theorem ClosedOver.of_self {g : TypeGraph} (S : List Nat) : ClosedOver g S S :=
  fun _ hu => Or.inl hu

/-- Closure composes along two stages of the same pass. -/
theorem ClosedOver.compose {g : TypeGraph} {S s1 s2 : List Nat}
    (h1 : ClosedOver g S s1) (h2 : ClosedOver g s1 s2) (hsub : s1 ⊆ s2) :
    ClosedOver g S s2 := by
  intro u hu
  rcases h2 u hu with hmem | hgood
  · rcases h1 u hmem with hS | ⟨hg, hc⟩
    · exact Or.inl hS
    · exact Or.inr ⟨hg, fun c hcm => hsub (hc c hcm)⟩
  · exact Or.inr hgood

/-- Replacing the head of the visited set by an explicit good-node witness. -/
theorem ClosedOver.patch {g : TypeGraph} {t : Nat} {seen s : List Nat}
    (h : ClosedOver g (t :: seen) s) (hg : idGood g t = true)
    (hc : ∀ c ∈ idChildren g t, c ∈ s) : ClosedOver g seen s := by
  intro u hu
  rcases h u hu with hmem | hgood
  · rcases List.mem_cons.mp hmem with rfl | hmem2
    · exact Or.inr ⟨hg, hc⟩
    · exact Or.inl hmem2
  · exact Or.inr hgood

/-- Invariant of the member loop: on a true verdict every processed member
lies in the final visited set, which is closed over the entry set. -/
theorem everyThread_inv {g : TypeGraph} {f : Nat → List Nat → Option (Bool × List Nat)}
    (hf : ∀ u seen b s, f u seen = some (b, s) →
      seen ⊆ s ∧ (b = true → u ∈ s ∧ ClosedOver g seen s)) :
    ∀ ts seen b s, everyThread f ts seen = some (b, s) →
      seen ⊆ s ∧ (b = true → (∀ u ∈ ts, u ∈ s) ∧ ClosedOver g seen s) := by
  intro ts
  induction ts with
  | nil =>
    intro seen b s h
    rw [everyThread] at h
    cases h
    refine ⟨List.Subset.refl _, fun _ => ⟨?_, ClosedOver.of_self _⟩⟩
    intro u hu
    cases hu
  | cons t rest ih =>
    intro seen b s h
    cases hft : f t seen with
    | none => simp [everyThread, hft] at h
    | some r =>
      obtain ⟨b1, s1⟩ := r
      obtain ⟨hsub1, htrue1⟩ := hf t seen b1 s1 hft
      cases b1 with
      | false =>
        simp only [everyThread, hft, Bool.false_eq_true, if_false,
          Option.some.injEq, Prod.mk.injEq] at h
        obtain ⟨hb, hs⟩ := h
        subst hb
        subst hs
        exact ⟨hsub1, fun hb2 => by cases hb2⟩
      | true =>
        simp only [everyThread, hft, if_true] at h
        obtain ⟨hsub2, htrue2⟩ := ih s1 b s h
        refine ⟨hsub1.trans hsub2, fun hb => ?_⟩
        obtain ⟨ht1, hcl1⟩ := htrue1 rfl
        obtain ⟨hrest, hcl2⟩ := htrue2 hb
        refine ⟨?_, hcl1.compose hcl2 hsub2⟩
        intro u hu
        rcases List.mem_cons.mp hu with rfl | hmem
        · exact hsub2 ht1
        · exact hrest u hmem

/-- Invariant of the property loop: on a true verdict every resolved
property type lies in the final visited set, which is closed over the entry
set. -/
theorem everyPropThread_inv {g : TypeGraph} {f : Nat → List Nat → Option (Bool × List Nat)}
    (hf : ∀ u seen b s, f u seen = some (b, s) →
      seen ⊆ s ∧ (b = true → u ∈ s ∧ ClosedOver g seen s)) :
    ∀ ps seen b s, everyPropThread f ps seen = some (b, s) →
      seen ⊆ s ∧ (b = true →
        (∀ p ∈ ps, ∀ q, p.propType = some q → q ∈ s) ∧ ClosedOver g seen s) := by
  intro ps
  induction ps with
  | nil =>
    intro seen b s h
    rw [everyPropThread] at h
    cases h
    refine ⟨List.Subset.refl _, fun _ => ⟨?_, ClosedOver.of_self _⟩⟩
    intro p hp
    cases hp
  | cons p rest ih =>
    intro seen b s h
    cases hpt : p.propType with
    | none =>
      rw [everyPropThread, hpt] at h
      obtain ⟨hsub2, htrue2⟩ := ih seen b s h
      refine ⟨hsub2, fun hb => ?_⟩
      obtain ⟨hrest, hcl⟩ := htrue2 hb
      refine ⟨?_, hcl⟩
      intro p2 hp2 q hq
      rcases List.mem_cons.mp hp2 with rfl | hmem
      · rw [hpt] at hq
        cases hq
      · exact hrest p2 hmem q hq
    | some pt =>
      cases hft : f pt seen with
      | none => simp [everyPropThread, hpt, hft] at h
      | some r =>
        obtain ⟨b1, s1⟩ := r
        obtain ⟨hsub1, htrue1⟩ := hf pt seen b1 s1 hft
        cases b1 with
        | false =>
          simp only [everyPropThread, hpt, hft, Bool.false_eq_true, if_false,
            Option.some.injEq, Prod.mk.injEq] at h
          obtain ⟨hb, hs⟩ := h
          subst hb
          subst hs
          exact ⟨hsub1, fun hb2 => by cases hb2⟩
        | true =>
          simp only [everyPropThread, hpt, hft, if_true] at h
          obtain ⟨hsub2, htrue2⟩ := ih s1 b s h
          refine ⟨hsub1.trans hsub2, fun hb => ?_⟩
          obtain ⟨ht1, hcl1⟩ := htrue1 rfl
          obtain ⟨hrest, hcl2⟩ := htrue2 hb
          refine ⟨?_, hcl1.compose hcl2 hsub2⟩
          intro p2 hp2 q hq
          rcases List.mem_cons.mp hp2 with rfl | hmem
          · rw [hpt] at hq
            cases hq
            exact hsub2 ht1
          · exact hrest p2 hmem q hq

/-- Invariant of the classification: the visited set grows, and on a true
verdict the queried id lies in the final visited set, which is closed over
the entry set. -/
theorem classify_inv (g : TypeGraph) :
    ∀ fuel t seen b s, classify g fuel t seen = some (b, s) →
      seen ⊆ s ∧ (b = true → t ∈ s ∧ ClosedOver g seen s) := by
  intro fuel
  induction fuel with
  | zero => intro t seen b s h; rw [classify] at h; cases h
  | succ n ih =>
    intro t seen b s h
    by_cases hseen : t ∈ seen
    · rw [classify, if_pos hseen] at h
      cases h
      exact ⟨List.Subset.refl _, fun _ => ⟨hseen, ClosedOver.of_self _⟩⟩
    · rw [classify, if_neg hseen] at h
      have hsub1 : seen ⊆ t :: seen := List.subset_cons_self _ _
      cases hlook : lookupNode g t with
      | none =>
        rw [hlook] at h
        cases h
        refine ⟨hsub1, fun _ => ⟨List.mem_cons_self _ _, ?_⟩⟩
        intro u hu
        rcases List.mem_cons.mp hu with rfl | hmem
        · exact Or.inr ⟨by simp [idGood, hlook], by simp [idChildren, hlook]⟩
        · exact Or.inl hmem
      | some node =>
        rw [hlook] at h
        simp only at h
        by_cases hd : isDeniedTypeName (jsTrim node.name) = true
        · rw [if_pos hd] at h
          cases h
          exact ⟨hsub1, fun hb => by cases hb⟩
        · rw [if_neg hd] at h
          have hnamegood : (isEscapeTypeName (jsTrim node.name) = true ∨
              isLiteralTypeName (jsTrim node.name) = true ∨
              isPrimitiveTypeName (jsTrim node.name) = true) →
              idGood g t = true ∧ idChildren g t = [] := by
            intro hcase
            constructor
            · simp only [idGood, hlook, Option.elim, nodeGood, hd, Bool.false_eq_true,
                if_false]
              rcases hcase with hx | hx | hx <;> simp [hx]
            · simp only [idChildren, hlook, Option.elim, nodeChildren]
              have : (isDeniedTypeName (jsTrim node.name) ||
                  isEscapeTypeName (jsTrim node.name) ||
                  isLiteralTypeName (jsTrim node.name) ||
                  isPrimitiveTypeName (jsTrim node.name)) = true := by
                rcases hcase with hx | hx | hx <;> simp [hx]
              simp [this]
          by_cases he : isEscapeTypeName (jsTrim node.name) = true
          · rw [if_pos he] at h
            cases h
            refine ⟨hsub1, fun _ => ⟨List.mem_cons_self _ _, ?_⟩⟩
            obtain ⟨hg, hc⟩ := hnamegood (Or.inl he)
            intro u hu
            rcases List.mem_cons.mp hu with rfl | hmem
            · exact Or.inr ⟨hg, by simp [hc]⟩
            · exact Or.inl hmem
          · rw [if_neg he] at h
            by_cases hl : isLiteralTypeName (jsTrim node.name) = true
            · rw [if_pos hl] at h
              cases h
              refine ⟨hsub1, fun _ => ⟨List.mem_cons_self _ _, ?_⟩⟩
              obtain ⟨hg, hc⟩ := hnamegood (Or.inr (Or.inl hl))
              intro u hu
              rcases List.mem_cons.mp hu with rfl | hmem
              · exact Or.inr ⟨hg, by simp [hc]⟩
              · exact Or.inl hmem
            · rw [if_neg hl] at h
              by_cases hp : isPrimitiveTypeName (jsTrim node.name) = true
              · rw [if_pos hp] at h
                cases h
                refine ⟨hsub1, fun _ => ⟨List.mem_cons_self _ _, ?_⟩⟩
                obtain ⟨hg, hc⟩ := hnamegood (Or.inr (Or.inr hp))
                intro u hu
                rcases List.mem_cons.mp hu with rfl | hmem
                · exact Or.inr ⟨hg, by simp [hc]⟩
                · exact Or.inl hmem
              · rw [if_neg hp] at h
                have hnamefalse : (isDeniedTypeName (jsTrim node.name) ||
                    isEscapeTypeName (jsTrim node.name) ||
                    isLiteralTypeName (jsTrim node.name) ||
                    isPrimitiveTypeName (jsTrim node.name)) = false := by
                  simp only [Bool.or_eq_false_iff]
                  exact ⟨⟨⟨by simpa using hd, by simpa using he⟩, by simpa using hl⟩,
                    by simpa using hp⟩
                cases hform : node.form with
                | union members =>
                  rw [hform] at h
                  obtain ⟨hsub2, htrue2⟩ := everyThread_inv (fun u s' => ih u s') members
                    (t :: seen) b s h
                  refine ⟨hsub1.trans hsub2, fun hb => ?_⟩
                  obtain ⟨hmems, hcl⟩ := htrue2 hb
                  refine ⟨hsub2 (List.mem_cons_self _ _), hcl.patch ?_ ?_⟩
                  · simp [idGood, hlook, nodeGood, hd, he, hl, hp, hform]
                  · intro c hc
                    apply hmems
                    simpa [idChildren, hlook, nodeChildren, hnamefalse, hform] using hc
                | intersection members =>
                  rw [hform] at h
                  obtain ⟨hsub2, htrue2⟩ := everyThread_inv (fun u s' => ih u s') members
                    (t :: seen) b s h
                  refine ⟨hsub1.trans hsub2, fun hb => ?_⟩
                  obtain ⟨hmems, hcl⟩ := htrue2 hb
                  refine ⟨hsub2 (List.mem_cons_self _ _), hcl.patch ?_ ?_⟩
                  · simp [idGood, hlook, nodeGood, hd, he, hl, hp, hform]
                  · intro c hc
                    apply hmems
                    simpa [idChildren, hlook, nodeChildren, hnamefalse, hform] using hc
                | tuple typeArguments =>
                  rw [hform] at h
                  obtain ⟨hsub2, htrue2⟩ := everyThread_inv (fun u s' => ih u s')
                    typeArguments (t :: seen) b s h
                  refine ⟨hsub1.trans hsub2, fun hb => ?_⟩
                  obtain ⟨hmems, hcl⟩ := htrue2 hb
                  refine ⟨hsub2 (List.mem_cons_self _ _), hcl.patch ?_ ?_⟩
                  · simp [idGood, hlook, nodeGood, hd, he, hl, hp, hform]
                  · intro c hc
                    apply hmems
                    simpa [idChildren, hlook, nodeChildren, hnamefalse, hform] using hc
                | array typeArguments =>
                  rw [hform] at h
                  cases typeArguments with
                  | nil =>
                    simp only [List.head?] at h
                    cases h
                    refine ⟨hsub1, fun _ => ⟨List.mem_cons_self _ _, ?_⟩⟩
                    intro u hu
                    rcases List.mem_cons.mp hu with rfl | hmem
                    · refine Or.inr ⟨?_, ?_⟩
                      · simp [idGood, hlook, nodeGood, hd, he, hl, hp, hform]
                      · simp [idChildren, hlook, nodeChildren, hnamefalse, hform]
                    · exact Or.inl hmem
                  | cons a tl =>
                    simp only [List.head?] at h
                    obtain ⟨hsub2, htrue2⟩ := ih a (t :: seen) b s h
                    refine ⟨hsub1.trans hsub2, fun hb => ?_⟩
                    obtain ⟨ha, hcl⟩ := htrue2 hb
                    refine ⟨hsub2 (List.mem_cons_self _ _), hcl.patch ?_ ?_⟩
                    · simp [idGood, hlook, nodeGood, hd, he, hl, hp, hform]
                    · intro c hc
                      simp only [idChildren, hlook, Option.elim, nodeChildren, hnamefalse,
                        Bool.false_eq_true, if_false, hform, List.take,
                        List.mem_singleton] at hc
                      subst hc
                      exact ha
                | plain =>
                  rw [hform] at h
                  by_cases hsig :
                      (node.callSignatures > 0 || node.constructSignatures > 0) = true
                  · rw [if_pos hsig] at h
                    cases h
                    exact ⟨hsub1, fun hb => by cases hb⟩
                  · rw [if_neg hsig] at h
                    cases hidx : node.stringIndexType with
                    | some stringIndexType =>
                      rw [hidx] at h
                      obtain ⟨hsub2, htrue2⟩ := ih stringIndexType (t :: seen) b s h
                      refine ⟨hsub1.trans hsub2, fun hb => ?_⟩
                      obtain ⟨hi, hcl⟩ := htrue2 hb
                      refine ⟨hsub2 (List.mem_cons_self _ _), hcl.patch ?_ ?_⟩
                      · have hsig2 : (node.callSignatures > 0 ||
                            node.constructSignatures > 0) = false := by
                          rwa [Bool.not_eq_true] at hsig
                        simp [idGood, hlook, nodeGood, hd, he, hl, hp, hform, hsig2, hidx]
                      · have hsig2 : (node.callSignatures > 0 ||
                            node.constructSignatures > 0) = false := by
                          rwa [Bool.not_eq_true] at hsig
                        intro c hc
                        simp only [idChildren, hlook, Option.elim, nodeChildren, hnamefalse,
                          Bool.false_eq_true, if_false, hform, hsig2, hidx,
                          List.mem_singleton] at hc
                        subst hc
                        exact hi
                    | none =>
                      rw [hidx] at h
                      by_cases hemp :
                          (node.properties.length = 0 && jsTrim node.name != "\x7b\x7d") = true
                      · rw [if_pos hemp] at h
                        cases h
                        exact ⟨hsub1, fun hb => by cases hb⟩
                      · rw [if_neg hemp] at h
                        obtain ⟨hsub2, htrue2⟩ := everyPropThread_inv (fun u s' => ih u s')
                          node.properties (t :: seen) b s h
                        refine ⟨hsub1.trans hsub2, fun hb => ?_⟩
                        obtain ⟨hprops, hcl⟩ := htrue2 hb
                        refine ⟨hsub2 (List.mem_cons_self _ _), hcl.patch ?_ ?_⟩
                        · have hsig2 : (node.callSignatures > 0 ||
                              node.constructSignatures > 0) = false := by
                            rwa [Bool.not_eq_true] at hsig
                          have hemp2 : (node.properties.length = 0 &&
                              jsTrim node.name != "\x7b\x7d") = false := by
                            rwa [Bool.not_eq_true] at hemp
                          simp [idGood, hlook, nodeGood, hd, he, hl, hp, hform, hsig2,
                            hidx, hemp2]
                          by_cases hln : node.properties.length = 0
                          · refine Or.inr ?_
                            have : (jsTrim node.name != "\x7b\x7d") = false := by
                              simpa [hln] using hemp2
                            simpa using this
                          · exact Or.inl fun hnil => hln (by simp [hnil])
                        · have hsig2 : (node.callSignatures > 0 ||
                              node.constructSignatures > 0) = false := by
                            rwa [Bool.not_eq_true] at hsig
                          intro c hc
                          simp only [idChildren, hlook, Option.elim, nodeChildren, hnamefalse,
                            Bool.false_eq_true, if_false, hform, hsig2, hidx] at hc
                          rw [List.mem_filterMap] at hc
                          obtain ⟨p, hpmem, hpt⟩ := hc
                          exact hprops p hpmem c hpt


/-- Member loop soundness: when every member lies in a set closed over the
running visited set, the loop returns true. -/
theorem everyThread_sound {g : TypeGraph} {fuel : Nat} {B : List Nat}
    {f : Nat → List Nat → Option (Bool × List Nat)}
    (hf : ∀ u seen, u ∈ B → keysLeft g seen < fuel → ClosedOver g seen B →
      ∃ s, f u seen = some (true, s) ∧ seen ⊆ s ∧ keysLeft g s ≤ keysLeft g seen) :
    ∀ ts seen, (∀ u ∈ ts, u ∈ B) → keysLeft g seen < fuel → ClosedOver g seen B →
      ∃ s, everyThread f ts seen = some (true, s) ∧ seen ⊆ s ∧
        keysLeft g s ≤ keysLeft g seen := by
  intro ts
  induction ts with
  | nil =>
    intro seen _ _ _
    exact ⟨seen, rfl, List.Subset.refl _, Nat.le_refl _⟩
  | cons t rest ih =>
    intro seen hts hk hcl
    obtain ⟨s1, hf1, hsub1, hk1⟩ := hf t seen (hts t (List.mem_cons_self _ _)) hk hcl
    obtain ⟨s2, h2, hsub2, hk2⟩ := ih s1 (fun u hu => hts u (List.mem_cons_of_mem _ hu))
      (Nat.lt_of_le_of_lt hk1 hk) (hcl.mono_left hsub1)
    exact ⟨s2, by simp [everyThread, hf1, h2], hsub1.trans hsub2, hk2.trans hk1⟩

/-- Property loop soundness: when every resolved property type lies in a
set closed over the running visited set, the loop returns true. -/
theorem everyPropThread_sound {g : TypeGraph} {fuel : Nat} {B : List Nat}
    {f : Nat → List Nat → Option (Bool × List Nat)}
    (hf : ∀ u seen, u ∈ B → keysLeft g seen < fuel → ClosedOver g seen B →
      ∃ s, f u seen = some (true, s) ∧ seen ⊆ s ∧ keysLeft g s ≤ keysLeft g seen) :
    ∀ ps seen, (∀ p ∈ ps, ∀ q, p.propType = some q → q ∈ B) →
      keysLeft g seen < fuel → ClosedOver g seen B →
      ∃ s, everyPropThread f ps seen = some (true, s) ∧ seen ⊆ s ∧
        keysLeft g s ≤ keysLeft g seen := by
  intro ps
  induction ps with
  | nil =>
    intro seen _ _ _
    exact ⟨seen, rfl, List.Subset.refl _, Nat.le_refl _⟩
  | cons p rest ih =>
    intro seen hps hk hcl
    cases hpt : p.propType with
    | none =>
      obtain ⟨s2, h2, hsub2, hk2⟩ := ih seen
        (fun p2 hp2 q hq => hps p2 (List.mem_cons_of_mem _ hp2) q hq) hk hcl
      exact ⟨s2, by simp [everyPropThread, hpt, h2], hsub2, hk2⟩
    | some pt =>
      obtain ⟨s1, hf1, hsub1, hk1⟩ :=
        hf pt seen (hps p (List.mem_cons_self _ _) pt hpt) hk hcl
      obtain ⟨s2, h2, hsub2, hk2⟩ := ih s1
        (fun p2 hp2 q hq => hps p2 (List.mem_cons_of_mem _ hp2) q hq)
        (Nat.lt_of_le_of_lt hk1 hk) (hcl.mono_left hsub1)
      exact ⟨s2, by simp [everyPropThread, hpt, hf1, h2], hsub1.trans hsub2, hk2.trans hk1⟩

/-- Classification soundness: membership in a set of good nodes closed
under children forces a true verdict. -/
theorem classify_sound (g : TypeGraph) (B : List Nat) :
    ∀ fuel t seen, t ∈ B → keysLeft g seen < fuel → ClosedOver g seen B →
      ∃ s, classify g fuel t seen = some (true, s) ∧ seen ⊆ s ∧
        keysLeft g s ≤ keysLeft g seen := by
  intro fuel
  induction fuel with
  | zero => intro t seen _ hk _; omega
  | succ n ih =>
    intro t seen htB hk hcl
    by_cases hseen : t ∈ seen
    · exact ⟨seen, by simp [classify, hseen], List.Subset.refl _, Nat.le_refl _⟩
    · have hsub1 : seen ⊆ t :: seen := List.subset_cons_self _ _
      have hclgood : idGood g t = true ∧ ∀ c ∈ idChildren g t, c ∈ B := by
        rcases hcl t htB with hmem | hgood
        · exact absurd hmem hseen
        · exact hgood
      obtain ⟨hgood, hchild⟩ := hclgood
      cases hlook : lookupNode g t with
      | none =>
        exact ⟨t :: seen, by simp [classify, hseen, hlook], hsub1, keysLeft_cons_le⟩
      | some node =>
        have hngood : nodeGood node = true := by
          simpa [idGood, hlook] using hgood
        have hnchild : ∀ c ∈ nodeChildren node, c ∈ B := by
          intro c hc
          exact hchild c (by simpa [idChildren, hlook] using hc)
        have hlt : keysLeft g (t :: seen) < keysLeft g seen :=
          keysLeft_cons_lt (lookupNode_mem_keys hlook) hseen
        have hn : keysLeft g (t :: seen) < n := by omega
        have hcl1 : ClosedOver g (t :: seen) B := hcl.mono_left hsub1
        have hd : isDeniedTypeName (jsTrim node.name) = false := by
          by_contra hdc
          rw [Bool.not_eq_false] at hdc
          simp [nodeGood, hdc] at hngood
        by_cases he : isEscapeTypeName (jsTrim node.name) = true
        · exact ⟨t :: seen, by simp [classify, hseen, hlook, hd, he], hsub1,
            keysLeft_cons_le⟩
        · by_cases hl : isLiteralTypeName (jsTrim node.name) = true
          · exact ⟨t :: seen, by simp [classify, hseen, hlook, hd, he, hl], hsub1,
              keysLeft_cons_le⟩
          · by_cases hp : isPrimitiveTypeName (jsTrim node.name) = true
            · exact ⟨t :: seen, by simp [classify, hseen, hlook, hd, he, hl, hp], hsub1,
                keysLeft_cons_le⟩
            · have hnamefalse : (isDeniedTypeName (jsTrim node.name) ||
                  isEscapeTypeName (jsTrim node.name) ||
                  isLiteralTypeName (jsTrim node.name) ||
                  isPrimitiveTypeName (jsTrim node.name)) = false := by
                simp [hd, he, hl, hp]
              cases hform : node.form with
              | union members =>
                have hmembers : ∀ u ∈ members, u ∈ B := by
                  intro u hu
                  apply hnchild
                  simp [nodeChildren, hnamefalse, hform, hu]
                obtain ⟨s, hev, hsub, hks⟩ := everyThread_sound ih members
                  (t :: seen) hmembers hn hcl1
                exact ⟨s, by simp [classify, hseen, hlook, hd, he, hl, hp, hform, hev],
                  hsub1.trans hsub, hks.trans keysLeft_cons_le⟩
              | intersection members =>
                have hmembers : ∀ u ∈ members, u ∈ B := by
                  intro u hu
                  apply hnchild
                  simp [nodeChildren, hnamefalse, hform, hu]
                obtain ⟨s, hev, hsub, hks⟩ := everyThread_sound ih members
                  (t :: seen) hmembers hn hcl1
                exact ⟨s, by simp [classify, hseen, hlook, hd, he, hl, hp, hform, hev],
                  hsub1.trans hsub, hks.trans keysLeft_cons_le⟩
              | tuple typeArguments =>
                have hmembers : ∀ u ∈ typeArguments, u ∈ B := by
                  intro u hu
                  apply hnchild
                  simp [nodeChildren, hnamefalse, hform, hu]
                obtain ⟨s, hev, hsub, hks⟩ := everyThread_sound ih typeArguments
                  (t :: seen) hmembers hn hcl1
                exact ⟨s, by simp [classify, hseen, hlook, hd, he, hl, hp, hform, hev],
                  hsub1.trans hsub, hks.trans keysLeft_cons_le⟩
              | array typeArguments =>
                cases typeArguments with
                | nil =>
                  exact ⟨t :: seen,
                    by simp [classify, hseen, hlook, hd, he, hl, hp, hform], hsub1,
                    keysLeft_cons_le⟩
                | cons a tl =>
                  have ha : a ∈ B := by
                    apply hnchild
                    simp [nodeChildren, hnamefalse, hform, List.take]
                  obtain ⟨s, hev, hsub, hks⟩ := ih a (t :: seen) ha hn hcl1
                  exact ⟨s, by simp [classify, hseen, hlook, hd, he, hl, hp, hform, hev],
                    hsub1.trans hsub, hks.trans keysLeft_cons_le⟩
              | plain =>
                by_cases hsig :
                    (node.callSignatures > 0 || node.constructSignatures > 0) = true
                · exfalso
                  simp [nodeGood, hd, he, hl, hp, hform, hsig] at hngood
                · cases hidx : node.stringIndexType with
                  | some stringIndexType =>
                    have hi : stringIndexType ∈ B := by
                      apply hnchild
                      simp [nodeChildren, hnamefalse, hform, hsig, hidx]
                    obtain ⟨s, hev, hsub, hks⟩ := ih stringIndexType (t :: seen) hi hn hcl1
                    exact ⟨s,
                      by simp [classify, hseen, hlook, hd, he, hl, hp, hform, hsig, hidx,
                        hev], hsub1.trans hsub, hks.trans keysLeft_cons_le⟩
                  | none =>
                    have hempty : (node.properties.length = 0 &&
                        jsTrim node.name != "\x7b\x7d") = false := by
                      by_contra hc
                      rw [Bool.not_eq_false] at hc
                      simp only [Bool.and_eq_true, decide_eq_true_eq, bne_iff_ne,
                        ne_eq] at hc
                      simp [nodeGood, hd, he, hl, hp, hform, hsig, hidx] at hngood
                      rcases hngood with hx | hx
                      · exact hx (List.length_eq_zero.mp hc.1)
                      · exact hc.2 hx
                    have hpropsB : ∀ p ∈ node.properties, ∀ q, p.propType = some q →
                        q ∈ B := by
                      intro p hp2 q hq
                      apply hnchild
                      simp only [nodeChildren, hnamefalse, Bool.false_eq_true, if_false,
                        hform, hidx, List.mem_filterMap]
                      have hsig2 : (node.callSignatures > 0 ||
                          node.constructSignatures > 0) = false := by
                        rwa [Bool.not_eq_true] at hsig
                      simp only [hsig2, Bool.false_eq_true, if_false, hidx,
                        List.mem_filterMap]
                      exact ⟨p, hp2, hq⟩
                    obtain ⟨s, hev, hsub, hks⟩ := everyPropThread_sound ih
                      node.properties (t :: seen) hpropsB hn hcl1
                    refine ⟨s, ?_, hsub1.trans hsub, hks.trans keysLeft_cons_le⟩
                    simp [classify, hseen, hlook, hd, he, hl, hp, hform, hsig, hidx, hev]
                    intro h2
                    have h3 := hempty
                    simp [h2] at h3
                    exact h3

/-- Characterization of the classification predicate: a type id is judged
serializable exactly when it belongs to a set of ids each of which is
either a good node with all children inside the set (the sets closed over
the empty visited set). -/
theorem isJsonSerializableType_iff_closed (g : TypeGraph) (t : Nat) :
    isJsonSerializableType g t = true ↔ ∃ B, t ∈ B ∧ ClosedOver g [] B := by
  constructor
  · intro h
    obtain ⟨b, s, hc, hsub, hk⟩ :=
      classify_spec g (fuelBound g) t [] (keysLeft_nil_lt_fuelBound g)
    simp only [isJsonSerializableType, hc] at h
    obtain ⟨hsub2, htrue⟩ := classify_inv g (fuelBound g) t [] b s hc
    obtain ⟨hts, hcl⟩ := htrue h
    exact ⟨s, hts, hcl⟩
  · rintro ⟨B, htB, hcl⟩
    obtain ⟨s, hc, hsub, hk⟩ := classify_sound g B (fuelBound g) t []
      htB (keysLeft_nil_lt_fuelBound g) hcl
    simp only [isJsonSerializableType, hc]


/-- Word characters are never JS whitespace. -/
theorem isWordChar_not_ws {c : Char} (h : isWordChar c = true) :
    isJsWhitespaceChar c = false := by
  by_contra hws
  rw [Bool.not_eq_false] at hws
  simp only [isJsWhitespaceChar, Bool.or_eq_true, decide_eq_true_eq] at hws
  rcases hws with (((((((h1 | h1) | h1) | h1) | h1) | h1) | h1) | h1) <;>
    subst h1 <;> revert h <;> decide

/-- Uppercase letters are word characters. -/
theorem upper_isWordChar {c : Char} (h1 : 'A' ≤ c) (h2 : c ≤ 'Z') :
    isWordChar c = true := by
  simp [isWordChar, h1, h2]

/-- Uppercase letters are not decimal digits. -/
theorem upper_not_decDigit {c : Char} (h1 : 'A' ≤ c) (_h2 : c ≤ 'Z') :
    isDecDigit c = false := by
  by_contra h
  rw [Bool.not_eq_false] at h
  simp only [isDecDigit, Bool.and_eq_true, decide_eq_true_eq] at h
  exact absurd (le_trans h1 h.2) (by decide)

/-- dropWhile keeps a list none of whose characters satisfy the test. -/
theorem dropWhile_eq_self_of {p : Char → Bool} {cs : List Char}
    (h : ∀ ch ∈ cs, p ch = false) : cs.dropWhile p = cs := by
  cases cs with
  | nil => rfl
  | cons a l =>
    rw [List.dropWhile_cons_of_neg (by simp [h a (List.mem_cons_self a l)])]

/-- Trimming a list without whitespace characters is the identity. -/
theorem trimChars_eq_self {cs : List Char}
    (h : ∀ ch ∈ cs, isJsWhitespaceChar ch = false) : trimChars cs = cs := by
  unfold trimChars
  rw [dropWhile_eq_self_of h,
    dropWhile_eq_self_of (fun ch hch => h ch (List.mem_reverse.mp hch)),
    List.reverse_reverse]

/-- A character list headed by an uppercase letter and free of whitespace
is parsed by the Number conversion as a plain decimal-or-Infinity body. -/
theorem jsStringToNumber_upperHead {c : Char} {l : List Char}
    (h1 : 'A' ≤ c) (_h2 : c ≤ 'Z')
    (hw : ∀ ch ∈ c :: l, isJsWhitespaceChar ch = false) :
    jsStringToNumber (c :: l) = jsDecimalOrInfinity (c :: l) false := by
  rw [jsStringToNumber.eq_def]
  rw [trimChars_eq_self hw]
  split
  · rename_i heq; cases heq
  · rename_i rest heq
    injection heq with hc
    subst hc
    exact absurd h1 (by decide)
  · rename_i rest heq
    injection heq with hc
    subst hc
    exact absurd h1 (by decide)
  · rename_i rest heq
    injection heq with hc
    subst hc
    exact absurd h1 (by decide)
  · rename_i rest heq
    injection heq with hc
    subst hc
    exact absurd h1 (by decide)
  · rename_i rest heq
    injection heq with hc
    subst hc
    exact absurd h1 (by decide)
  · rename_i rest heq
    injection heq with hc
    subst hc
    exact absurd h1 (by decide)
  · rename_i rest heq
    injection heq with hc
    subst hc
    exact absurd h1 (by decide)
  · rename_i rest heq
    injection heq with hc
    subst hc
    exact absurd h1 (by decide)
  · rfl

/-- A decimal body cannot start with an uppercase letter. -/
theorem parseDecimalBody_upperHead {c : Char} {l : List Char}
    (h1 : 'A' ≤ c) (h2 : c ≤ 'Z') :
    parseDecimalBody (c :: l) = none := by
  rw [parseDecimalBody]
  rw [List.span_eq_take_drop]
  simp only [List.takeWhile_cons, List.dropWhile_cons, upper_not_decDigit h1 h2,
    Bool.false_eq_true, if_false]
  split
  · rename_i rest2 heq
    injection heq with hc
    subst hc
    exact absurd h1 (by decide)
  · simp

/-- A name matching the type-parameter pattern is never classified as a
bigint literal: the prefix before the final n starts with an uppercase
letter, which the Number conversion sends to NaN or Infinity. -/
theorem typeParameterName_not_bigint {s : String}
    (h : isLikelyTypeParameterName s = true) : isBigIntLiteralTypeName s = false := by
  cases hsd : s.data with
  | nil => simp [isLikelyTypeParameterName, hsd] at h
  | cons c rest =>
    simp only [isLikelyTypeParameterName, hsd, Bool.and_eq_true, decide_eq_true_eq,
      List.all_eq_true] at h
    obtain ⟨⟨h1, h2⟩, hrest⟩ := h
    rw [isBigIntLiteralTypeName]
    by_cases hcond : ((s.data.getLast? ≠ some 'n' || s.data.length ≤ 1 : Bool)) = true
    · rw [if_pos hcond]
    · rw [if_neg hcond]
      rw [Bool.not_eq_true] at hcond
      simp only [Bool.or_eq_false_iff, decide_eq_false_iff_not, not_not, not_le] at hcond
      obtain ⟨hlast, hlen⟩ := hcond
      have hrestne : rest ≠ [] := by
        intro hx
        rw [hsd, hx] at hlen
        simp at hlen
      have hdl : s.data.dropLast = c :: rest.dropLast := by
        rw [hsd]
        cases rest with
        | nil => exact absurd rfl hrestne
        | cons b bl => simp [List.dropLast]
      rw [hdl]
      have hwchars : ∀ ch ∈ c :: rest.dropLast, isJsWhitespaceChar ch = false := by
        intro ch hch
        rcases List.mem_cons.mp hch with rfl | hmem
        · exact isWordChar_not_ws (upper_isWordChar h1 h2)
        · exact isWordChar_not_ws (hrest ch ((List.dropLast_sublist rest).subset hmem))
      rw [jsStringToNumber_upperHead h1 h2 hwchars]
      by_cases hinf : c :: rest.dropLast = "Infinity".data
      · rw [jsDecimalOrInfinity, if_pos hinf]
        rfl
      · rw [jsDecimalOrInfinity, if_neg hinf, parseDecimalBody_upperHead h1 h2]
        rfl

/-- Unfolding of a successful context-argument selection into the gating
facts of the CallExpression visitor. -/
theorem select_eq_some_elim {callExpression : CallExpr} {arg : CallArg}
    (h : selectContextArgument callExpression = some arg) :
    ∃ loggerMethod, getLoggerMethod callExpression.callee = some loggerMethod ∧
      ¬callExpression.arguments.length < 2 ∧
      getContextArgumentForMethod loggerMethod callExpression = some arg := by
  cases hm : getLoggerMethod callExpression.callee with
  | none => simp [selectContextArgument, hm] at h
  | some m =>
    by_cases hlen : callExpression.arguments.length < 2
    · simp [selectContextArgument, hm, hlen] at h
    · refine ⟨m, rfl, hlen, ?_⟩
      simpa [selectContextArgument, hm, hlen] using h

/-- When the selector yields nothing, the visitor reports nothing, for any
type graph: the argument types are never consulted. -/
theorem checkCall_none_of_select_none {callExpression : CallExpr}
    (h : selectContextArgument callExpression = none) (g : TypeGraph) :
    checkCallExpression g callExpression = none := by
  cases hm : getLoggerMethod callExpression.callee with
  | none => simp [checkCallExpression, hm]
  | some m =>
    by_cases hlen : callExpression.arguments.length < 2
    · simp [checkCallExpression, hm, hlen]
    · have harg : getContextArgumentForMethod m callExpression = none := by
        simpa [selectContextArgument, hm, hlen] using h
      simp [checkCallExpression, hm, hlen, harg]

/-- Closed sets over the empty visited set are closed under append. -/
theorem ClosedOver.append {g : TypeGraph} {B1 B2 : List Nat}
    (h1 : ClosedOver g [] B1) (h2 : ClosedOver g [] B2) :
    ClosedOver g [] (B1 ++ B2) := by
  intro u hu
  rcases List.mem_append.mp hu with hm | hm
  · rcases h1 u hm with hx | ⟨hg, hc⟩
    · exact absurd hx (List.not_mem_nil u)
    · exact Or.inr ⟨hg, fun c hcm => List.mem_append.mpr (Or.inl (hc c hcm))⟩
  · rcases h2 u hm with hx | ⟨hg, hc⟩
    · exact absurd hx (List.not_mem_nil u)
    · exact Or.inr ⟨hg, fun c hcm => List.mem_append.mpr (Or.inr (hc c hcm))⟩

/-- A closed set containing every member of a list can be assembled from
closed sets for the members. -/
theorem exists_closed_union {g : TypeGraph} :
    ∀ ms : List Nat, (∀ m ∈ ms, ∃ B, m ∈ B ∧ ClosedOver g [] B) →
      ∃ B, (∀ m ∈ ms, m ∈ B) ∧ ClosedOver g [] B := by
  intro ms
  induction ms with
  | nil =>
    intro _
    exact ⟨[], by simp, fun u hu => absurd hu (List.not_mem_nil u)⟩
  | cons a l ih =>
    intro h
    obtain ⟨Ba, haB, hacl⟩ := h a (List.mem_cons_self _ _)
    obtain ⟨Bl, hlB, hlcl⟩ := ih (fun m hm => h m (List.mem_cons_of_mem _ hm))
    refine ⟨Ba ++ Bl, ?_, hacl.append hlcl⟩
    intro m hm
    rcases List.mem_cons.mp hm with rfl | hm2
    · exact List.mem_append.mpr (Or.inl haB)
    · exact List.mem_append.mpr (Or.inr (hlB m hm2))

/-- A good node without children is classified serializable. -/
theorem serializable_of_isolated {g : TypeGraph} {t : Nat}
    (hg : idGood g t = true) (hc : idChildren g t = []) :
    isJsonSerializableType g t = true := by
  rw [isJsonSerializableType_iff_closed]
  refine ⟨[t], List.mem_singleton.mpr rfl, ?_⟩
  intro u hu
  rw [List.mem_singleton] at hu
  subst hu
  refine Or.inr ⟨hg, fun c hcm => ?_⟩
  rw [hc] at hcm
  cases hcm

/-- Claim C5, amended: for a union or intersection type whose rendered
name does not fire any earlier name rule (denylist, bigint literal, escape
hatch, literal or primitive name), classifying the type with a fresh
visited set equals the conjunction of classifying each member with a fresh
visited set.  The amendment is forced by claim_C5_counterexample: an
aliased union whose printed name looks like a type parameter is classified
serializable without its members being consulted. -/
theorem claim_C5 (g : TypeGraph) (t : Nat) (n : TypeNode) (members : List Nat)
    (hlook : lookupNode g t = some n)
    (hform : n.form = .union members ∨ n.form = .intersection members)
    (hd : isDeniedTypeName (jsTrim n.name) = false)
    (he : isEscapeTypeName (jsTrim n.name) = false)
    (hl : isLiteralTypeName (jsTrim n.name) = false)
    (hp : isPrimitiveTypeName (jsTrim n.name) = false) :
    isJsonSerializableType g t =
      members.all (fun m => isJsonSerializableType g m) := by
  have hchildren : idChildren g t = members := by
    rcases hform with hf | hf <;>
      simp [idChildren, hlook, nodeChildren, hd, he, hl, hp, hf]
  have hgood : idGood g t = true := by
    rcases hform with hf | hf <;>
      simp [idGood, hlook, nodeGood, hd, he, hl, hp, hf]
  rw [Bool.eq_iff_iff, isJsonSerializableType_iff_closed, List.all_eq_true]
  constructor
  · rintro ⟨B, htB, hcl⟩
    intro m hm
    rw [isJsonSerializableType_iff_closed]
    refine ⟨B, ?_, hcl⟩
    rcases hcl t htB with hx | ⟨_, hc⟩
    · exact absurd hx (List.not_mem_nil t)
    · refine hc m ?_
      rw [hchildren]
      exact hm
  · intro hms
    obtain ⟨B, hmsB, hcl⟩ := exists_closed_union members
      (fun m hm => (isJsonSerializableType_iff_closed g m).mp (hms m hm))
    refine ⟨t :: B, List.mem_cons_self _ _, ?_⟩
    intro u hu
    rcases List.mem_cons.mp hu with rfl | hu2
    · refine Or.inr ⟨hgood, fun c hc => ?_⟩
      rw [hchildren] at hc
      exact List.mem_cons_of_mem _ (hmsB c hc)
    · rcases hcl u hu2 with hx | ⟨hg2, hc2⟩
      · exact absurd hx (List.not_mem_nil u)
      · exact Or.inr ⟨hg2, fun c hc => List.mem_cons_of_mem _ (hc2 c hc)⟩

/-- Witness for claim C5 at a structural union of string and number. -/
theorem claim_C5_witness :
    isJsonSerializableType exGraphPlainUnion 0 =
      ([1, 2].all (fun m => isJsonSerializableType exGraphPlainUnion m)) :=
  claim_C5 exGraphPlainUnion 0 _ [1, 2] rfl (Or.inl rfl) (by decide) (by decide)
    (by decide) (by decide)

/-- Counterexample to claim C5 as stated: the alias-named union. -/
theorem claim_C5_counterexample :
    (lookupNode exGraphAliasUnion 0).map TypeNode.form = some (.union [1]) ∧
    isJsonSerializableType exGraphAliasUnion 0 = true ∧
    isJsonSerializableType exGraphAliasUnion 1 = false := by decide

/-- Claim C10: a type that reaches the index-signature step (name rules
passed, plain form, no call or construct signatures) and has a string
index type is classified exactly as that index value type; its named
properties are never inspected, so they are arbitrary here. -/
theorem claim_C10 (g : TypeGraph) (t : Nat) (n : TypeNode) (stringIndexType : Nat)
    (hlook : lookupNode g t = some n)
    (hd : isDeniedTypeName (jsTrim n.name) = false)
    (he : isEscapeTypeName (jsTrim n.name) = false)
    (hl : isLiteralTypeName (jsTrim n.name) = false)
    (hp : isPrimitiveTypeName (jsTrim n.name) = false)
    (hform : n.form = .plain)
    (hcs : n.callSignatures = 0) (hcons : n.constructSignatures = 0)
    (hidx : n.stringIndexType = some stringIndexType) :
    isJsonSerializableType g t = isJsonSerializableType g stringIndexType := by
  have hchildren : idChildren g t = [stringIndexType] := by
    simp [idChildren, hlook, nodeChildren, hd, he, hl, hp, hform, hcs, hcons, hidx]
  have hgood : idGood g t = true := by
    simp [idGood, hlook, nodeGood, hd, he, hl, hp, hform, hcs, hcons, hidx]
  rw [Bool.eq_iff_iff, isJsonSerializableType_iff_closed,
    isJsonSerializableType_iff_closed]
  constructor
  · rintro ⟨B, htB, hcl⟩
    refine ⟨B, ?_, hcl⟩
    rcases hcl t htB with hx | ⟨_, hc⟩
    · exact absurd hx (List.not_mem_nil t)
    · refine hc stringIndexType ?_
      rw [hchildren]
      exact List.mem_singleton.mpr rfl
  · rintro ⟨B, hiB, hcl⟩
    refine ⟨t :: B, List.mem_cons_self _ _, ?_⟩
    intro u hu
    rcases List.mem_cons.mp hu with rfl | hu2
    · refine Or.inr ⟨hgood, fun c hc => ?_⟩
      rw [hchildren, List.mem_singleton] at hc
      subst hc
      exact List.mem_cons_of_mem _ hiB
    · rcases hcl u hu2 with hx | ⟨hg2, hc2⟩
      · exact absurd hx (List.not_mem_nil u)
      · exact Or.inr ⟨hg2, fun c hc => List.mem_cons_of_mem _ (hc2 c hc)⟩

/-- Witness for claim C10 at the dictionary example graph. -/
theorem claim_C10_witness :
    isJsonSerializableType exGraphStringIndex 0 =
      isJsonSerializableType exGraphStringIndex 1 :=
  claim_C10 exGraphStringIndex 0 _ 1 rfl (by decide) (by decide) (by decide)
    (by decide) rfl rfl rfl rfl

/-- Claim C9: a not-yet-visited type whose trimmed rendered name matches
the anchored pattern of an uppercase letter followed by word characters
and is not one of the eleven denylisted names is classified serializable
without examining any member, whatever its structure. -/
theorem claim_C9 (g : TypeGraph) (t : Nat) (n : TypeNode)
    (hlook : lookupNode g t = some n)
    (hregex : isLikelyTypeParameterName (jsTrim n.name) = true)
    (hdeny : NON_SERIALIZABLE_TYPE_NAMES.contains (jsTrim n.name) = false) :
    isJsonSerializableType g t = true := by
  have hd : isDeniedTypeName (jsTrim n.name) = false := by
    simp [isDeniedTypeName, hdeny, typeParameterName_not_bigint hregex]
    simpa using hdeny
  have he : isEscapeTypeName (jsTrim n.name) = true := by
    simp [isEscapeTypeName, hregex]
  refine serializable_of_isolated ?_ ?_
  · simp only [idGood, hlook, Option.elim]
    simp [nodeGood, hd, he]
  · simp only [idChildren, hlook, Option.elim]
    simp [nodeChildren, hd, he]

/-- Witness for claim C9 at the Error node. -/
theorem claim_C9_witness : isJsonSerializableType exGraphErrorCause 1 = true :=
  claim_C9 exGraphErrorCause 1 _ rfl (by decide) (by decide)

/-- Claim C8: the predicate is total and never raises; the escape-hatch
names (any, never, unknown, type-parameter-like), an array without a
resolvable element type, and an object all of whose property symbols lack
a value declaration are each classified serializable.  Totality is the
fuel-sufficiency theorem claim_C7; the denylist hypothesis reflects that
the denylist ban precedes the escape rules in the source. -/
theorem claim_C8 (g : TypeGraph) :
    (∀ t n, lookupNode g t = some n →
      isDeniedTypeName (jsTrim n.name) = false →
      isEscapeTypeName (jsTrim n.name) = true →
      isJsonSerializableType g t = true) ∧
    (∀ t n, lookupNode g t = some n →
      isDeniedTypeName (jsTrim n.name) = false →
      n.form = .array [] →
      isJsonSerializableType g t = true) ∧
    (∀ t n, lookupNode g t = some n →
      isDeniedTypeName (jsTrim n.name) = false →
      n.form = .plain → n.callSignatures = 0 → n.constructSignatures = 0 →
      n.stringIndexType = none → n.properties ≠ [] →
      (∀ p ∈ n.properties, p.propType = none) →
      isJsonSerializableType g t = true) := by
  refine ⟨?_, ?_, ?_⟩
  · intro t n hlook hd he
    refine serializable_of_isolated ?_ ?_
    · simp only [idGood, hlook, Option.elim]
      simp [nodeGood, hd, he]
    · simp only [idChildren, hlook, Option.elim]
      simp [nodeChildren, hd, he]
  · intro t n hlook hd hform
    refine serializable_of_isolated ?_ ?_
    · simp only [idGood, hlook, Option.elim]
      by_cases h3 : (isEscapeTypeName (jsTrim n.name) ||
          isLiteralTypeName (jsTrim n.name) ||
          isPrimitiveTypeName (jsTrim n.name)) = true
      · simp [nodeGood, hd, h3]
      · simp [nodeGood, hd, h3, hform]
    · simp only [idChildren, hlook, Option.elim]
      by_cases h4 : (isDeniedTypeName (jsTrim n.name) ||
          isEscapeTypeName (jsTrim n.name) ||
          isLiteralTypeName (jsTrim n.name) ||
          isPrimitiveTypeName (jsTrim n.name)) = true
      · simp [nodeChildren, h4]
      · simp [nodeChildren, h4, hform]
  · intro t n hlook hd hform hcs hcons hidx hne hall
    refine serializable_of_isolated ?_ ?_
    · simp only [idGood, hlook, Option.elim]
      by_cases h3 : (isEscapeTypeName (jsTrim n.name) ||
          isLiteralTypeName (jsTrim n.name) ||
          isPrimitiveTypeName (jsTrim n.name)) = true
      · simp [nodeGood, hd, h3]
      · simp [nodeGood, hd, h3, hform, hcs, hcons, hidx]
        exact Or.inl hne
    · simp only [idChildren, hlook, Option.elim]
      by_cases h4 : (isDeniedTypeName (jsTrim n.name) ||
          isEscapeTypeName (jsTrim n.name) ||
          isLiteralTypeName (jsTrim n.name) ||
          isPrimitiveTypeName (jsTrim n.name)) = true
      · simp [nodeChildren, h4]
      · simp only [nodeChildren, h4, Bool.false_eq_true, if_false, hform, hcs, hcons,
          hidx]
        simp [List.filterMap_eq_nil_iff]
        exact hall

/-- Witness for claim C8 at the three example graphs. -/
theorem claim_C8_witness :
    isJsonSerializableType exGraphUnknown 0 = true ∧
    isJsonSerializableType exGraphEmptyArray 0 = true ∧
    isJsonSerializableType exGraphNoDecl 0 = true :=
  ⟨(claim_C8 exGraphUnknown).1 0 _ rfl (by decide) (by decide),
   (claim_C8 exGraphEmptyArray).2.1 0 _ rfl (by decide) rfl,
   (claim_C8 exGraphNoDecl).2.2 0 _ rfl (by decide) rfl rfl rfl rfl (by decide)
     (by decide)⟩

/-- Claim C7: every classification terminates: with fuel exceeding the
number of unvisited graph keys the call returns a verdict, and each
recursive invocation either stops on a visited id or strictly enlarges
the visited set, which the finite graph bounds. -/
theorem claim_C7 (g : TypeGraph) (t : Nat) :
    (∃ b s, classify g (fuelBound g) t [] = some (b, s)) ∧
    (∀ fuel seen u, keysLeft g seen < fuel →
      ∃ b s, classify g fuel u seen = some (b, s) ∧ seen ⊆ s) := by
  constructor
  · obtain ⟨b, s, hc, -, -⟩ :=
      classify_spec g (fuelBound g) t [] (keysLeft_nil_lt_fuelBound g)
    exact ⟨b, s, hc⟩
  · intro fuel seen u h
    obtain ⟨b, s, hc, hsub, -⟩ := classify_spec g fuel u seen h
    exact ⟨b, s, hc, hsub⟩

/-- Witness for claim C7 on the self-referential example graph. -/
theorem claim_C7_witness :
    ∃ b s, classify exGraphSelfRef 3 0 [] = some (b, s) ∧ ([] : List Nat) ⊆ s :=
  (claim_C7 exGraphSelfRef 0).2 3 [] 0 (by decide)

/-- Claim C6: re-encountering a visited type returns serializable
immediately, before the denylist or any structural check, and a
self-referential structural type classifies with the cyclic occurrence
judged serializable. -/
theorem claim_C6 :
    (∀ (g : TypeGraph) (fuel t : Nat) (seen : List Nat), t ∈ seen →
      classify g (fuel + 1) t seen = some (true, seen)) ∧
    isJsonSerializableType exGraphSelfRef 0 = true := by
  constructor
  · intro g fuel t seen h
    simp [classify, h]
  · decide

/-- Witness for claim C6: a concrete visited id and the cyclic graph. -/
theorem claim_C6_witness :
    classify exGraphSelfRef 1 7 [7] = some (true, [7]) ∧
    isJsonSerializableType exGraphSelfRef 0 = true :=
  ⟨claim_C6.1 exGraphSelfRef 0 7 [7] (by decide), claim_C6.2⟩

/-- Claim C2, amended: for a candidate call whose selected context
argument resolves to a type whose trimmed rendered name is denylisted or a
bigint literal, the visitor reports exactly one diagnostic anchored at
that context argument node.  The amendment is forced by
claim_C2_counterexample: a Date occurring deeper in the structure does not
guarantee a report, because propagation stops at escape-hatch names. -/
theorem claim_C2 (g : TypeGraph) (call : CallExpr) (loggerMethod : String)
    (arg : CallArg) (n : TypeNode)
    (hm : getLoggerMethod call.callee = some loggerMethod)
    (hlen : ¬call.arguments.length < 2)
    (harg : getContextArgumentForMethod loggerMethod call = some arg)
    (hlook : lookupNode g arg.typeId = some n)
    (hden : isDeniedTypeName (jsTrim n.name) = true) :
    checkCallExpression g call = some { method := loggerMethod, node := arg } := by
  have hser : isJsonSerializableType g arg.typeId = false := by
    have hfb : fuelBound g = g.length + 1 := rfl
    have hc : classify g (fuelBound g) arg.typeId [] =
        some (false, [arg.typeId]) := by
      rw [hfb]
      simp [classify, hlook, hden]
    simp [isJsonSerializableType, hc]
  simp [checkCallExpression, hm, hlen, harg, hser]

/-- Witness for claim C2 at a bigint literal context argument. -/
theorem claim_C2_witness :
    checkCallExpression exGraphBigIntLit exCallBigIntLit =
      some { method := "debug", node := { kind := .literal, typeId := 0 } } :=
  claim_C2 exGraphBigIntLit exCallBigIntLit "debug" _ _ rfl (by decide) rfl rfl
    (by decide)

/-- Counterexample to claim C2 as stated: a Date two levels deep behind a
capitalized interface name yields no report. -/
theorem claim_C2_counterexample :
    ContainsNonSerializableValue exGraphDeepDate 0 ∧
    selectContextArgument exCallDeepDate =
      some { kind := .objectExpression, typeId := 0 } ∧
    checkCallExpression exGraphDeepDate exCallDeepDate = none := by
  refine ⟨?_, by decide, by decide⟩
  refine ContainsNonSerializableValue.via (u := 1) rfl (by decide) ?_
  refine ContainsNonSerializableValue.via (u := 2) rfl (by decide) ?_
  exact ContainsNonSerializableValue.here rfl (by decide)

/-- Claim C3 counterexample: for logger.error with an Error-typed err and
the literal context with property cause of type Error, the call is a
candidate and the rule reports nothing, contrary to the claim. -/
theorem claim_C3_counterexample :
    selectContextArgument exCallErrorCause =
      some { kind := .objectExpression, typeId := 0 } ∧
    checkCallExpression exGraphErrorCause exCallErrorCause = none := by decide

/-- Claim C3, amended: the call logger.error(message, err, context with
cause err) produces no violation: the name Error matches the
type-parameter heuristic, so Error, and hence the containing object
literal type, is classified serializable; rule 14 is never reached. -/
theorem claim_C3 :
    isLikelyTypeParameterName (jsTrim "Error") = true ∧
    isJsonSerializableType exGraphErrorCause 1 = true ∧
    isJsonSerializableType exGraphErrorCause 0 = true ∧
    checkCallExpression exGraphErrorCause exCallErrorCause = none := by decide

/-- Claim C1: a candidate call whose selected literal-shaped context
argument resolves to a structural object type (plain form, no signatures,
no index signature, name not denylisted, empty only with the
empty-object-literal rendering) each of whose properties resolves to a
type rendered string, number, boolean or null is classified serializable
and the rule reports no violation. -/
theorem claim_C1 (g : TypeGraph) (call : CallExpr) (arg : CallArg) (n : TypeNode)
    (hsel : selectContextArgument call = some arg)
    (hlook : lookupNode g arg.typeId = some n)
    (hd : isDeniedTypeName (jsTrim n.name) = false)
    (hform : n.form = .plain)
    (hcs : n.callSignatures = 0) (hcons : n.constructSignatures = 0)
    (hidx : n.stringIndexType = none)
    (hne : n.properties = [] → jsTrim n.name = "\x7b\x7d")
    (hprops : ∀ p ∈ n.properties, ∃ q m, p.propType = some q ∧
      lookupNode g q = some m ∧
      (jsTrim m.name = "string" ∨ jsTrim m.name = "number" ∨
       jsTrim m.name = "boolean" ∨ jsTrim m.name = "null")) :
    isJsonSerializableType g arg.typeId = true ∧
    checkCallExpression g call = none := by
  have hser : isJsonSerializableType g arg.typeId = true := by
    rw [isJsonSerializableType_iff_closed]
    refine ⟨arg.typeId :: n.properties.filterMap (fun p => p.propType),
      List.mem_cons_self _ _, ?_⟩
    intro u hu
    rcases List.mem_cons.mp hu with rfl | humem
    · refine Or.inr ⟨?_, ?_⟩
      · simp only [idGood, hlook, Option.elim]
        by_cases h3 : (isEscapeTypeName (jsTrim n.name) ||
            isLiteralTypeName (jsTrim n.name) ||
            isPrimitiveTypeName (jsTrim n.name)) = true
        · simp [nodeGood, hd, h3]
        · simp [nodeGood, hd, h3, hform, hcs, hcons, hidx]
          by_cases hnil : n.properties = []
          · exact Or.inr (hne hnil)
          · exact Or.inl hnil
      · intro c hc
        simp only [idChildren, hlook, Option.elim] at hc
        by_cases h4 : (isDeniedTypeName (jsTrim n.name) ||
            isEscapeTypeName (jsTrim n.name) ||
            isLiteralTypeName (jsTrim n.name) ||
            isPrimitiveTypeName (jsTrim n.name)) = true
        · simp [nodeChildren, h4] at hc
        · simp only [nodeChildren, h4, Bool.false_eq_true, if_false, hform, hcs,
            hcons, hidx] at hc
          simp only [Nat.lt_irrefl, Bool.or_self, Bool.false_eq_true, if_false] at hc
          exact List.mem_cons_of_mem _ (by simpa using hc)
    · obtain ⟨p, hpmem, hpt⟩ := List.mem_filterMap.mp humem
      obtain ⟨q, m, hq, hlq, hname⟩ := hprops p hpmem
      rw [hq] at hpt
      injection hpt with hqu
      subst hqu
      have h3 : (isEscapeTypeName (jsTrim m.name) ||
          isLiteralTypeName (jsTrim m.name) ||
          isPrimitiveTypeName (jsTrim m.name)) = true := by
        rcases hname with h | h | h | h <;> rw [h] <;> decide
      have hd4 : isDeniedTypeName (jsTrim m.name) = false := by
        rcases hname with h | h | h | h <;> rw [h] <;> decide
      refine Or.inr ⟨?_, ?_⟩
      · simp only [idGood, hlq, Option.elim]
        simp [nodeGood, hd4, h3]
      · intro c hc
        simp only [idChildren, hlq, Option.elim] at hc
        simp [nodeChildren, hd4, h3] at hc
  obtain ⟨lm, hm, hlen, harg⟩ := select_eq_some_elim hsel
  exact ⟨hser, by simp [checkCallExpression, hm, hlen, harg, hser]⟩

/-- Witness for claim C1 at the two-field scalar object example. -/
theorem claim_C1_witness :
    isJsonSerializableType exGraphPrimObject 0 = true ∧
    checkCallExpression exGraphPrimObject exCallPrimObject = none :=
  claim_C1 exGraphPrimObject exCallPrimObject
    { kind := .objectExpression, typeId := 0 } _ rfl rfl (by decide) rfl rfl rfl
    rfl (by decide)
    (by
      intro p hp
      rcases List.mem_cons.mp hp with rfl | hp2
      · exact ⟨1, _, rfl, rfl, by decide⟩
      · rcases List.mem_cons.mp hp2 with rfl | hp3
        · exact ⟨2, _, rfl, rfl, by decide⟩
        · cases hp3)

/-- Inversion of getLoggerMethod: it answers exactly on non-computed
member accesses whose identifier property names a recognised method. -/
theorem getLoggerMethod_eq_some_iff {callee : Callee} {loggerMethod : String} :
    getLoggerMethod callee = some loggerMethod ↔
      callee = .member false (.ident loggerMethod) ∧
        loggerMethod ∈ LOGGER_METHODS := by
  cases callee with
  | nonMember => simp [getLoggerMethod]
  | member computed property =>
    cases computed with
    | true => simp [getLoggerMethod]
    | false =>
      cases property with
      | nonIdent => simp [getLoggerMethod]
      | ident propertyName =>
        simp [getLoggerMethod]
        constructor
        · rintro ⟨h1, rfl⟩
          exact ⟨rfl, h1⟩
        · rintro ⟨rfl, h2⟩
          exact ⟨h2, rfl⟩

/-- Inversion of getContextArgumentForMethod: success pins the argument
at the designated index and its literal-shaped form. -/
theorem getContext_some_elim {loggerMethod : String} {c : CallExpr} {arg : CallArg}
    (h : getContextArgumentForMethod loggerMethod c = some arg) :
    c.arguments[(if loggerMethod = "error" then 2 else 1 : Nat)]? = some arg ∧
      isContextLiteralExpression arg = true := by
  cases hcand : c.arguments[(if loggerMethod = "error" then 2 else 1 : Nat)]? with
  | none => simp [getContextArgumentForMethod, hcand] at h
  | some candidate =>
    by_cases hlit : isContextLiteralExpression candidate = true
    · have hca : candidate = arg := by
        simpa [getContextArgumentForMethod, hcand, hlit] using h
      subst hca
      exact ⟨rfl, hlit⟩
    · simp [getContextArgumentForMethod, hcand, hlit] at h

/-- The literal-shaped test in terms of the four accepted syntactic kinds. -/
theorem isContextLiteral_kinds {arg : CallArg}
    (h : isContextLiteralExpression arg = true) :
    arg.kind = .arrayExpression ∨ arg.kind = .literal ∨
      arg.kind = .objectExpression ∨ arg.kind = .templateLiteral := by
  rcases arg with ⟨k, tid⟩
  cases k <;> simp [isContextLiteralExpression] at h ⊢

/-- The four accepted syntactic kinds pass the literal-shaped test. -/
theorem isContextLiteral_of_kinds {arg : CallArg}
    (h : arg.kind = .arrayExpression ∨ arg.kind = .literal ∨
      arg.kind = .objectExpression ∨ arg.kind = .templateLiteral) :
    isContextLiteralExpression arg = true := by
  rcases arg with ⟨k, tid⟩
  cases k <;> first
    | rfl
    | (exfalso; simp at h)

/-- Claim C4: the selector yields a context argument exactly when the
callee is a non-computed member access naming a recognised method, the
call has at least two arguments, the argument at index 2 (error) or 1
(otherwise) exists, and that argument is an array, scalar, object or
template literal; when it yields none, no diagnostic is produced for any
type graph, so the argument type is never inspected or flagged. -/
theorem claim_C4 (callExpression : CallExpr) (arg : CallArg) :
    (selectContextArgument callExpression = some arg ↔
      ∃ methodName, callExpression.callee = .member false (.ident methodName) ∧
        methodName ∈ LOGGER_METHODS ∧
        2 ≤ callExpression.arguments.length ∧
        callExpression.arguments[(if methodName = "error" then 2 else 1 : Nat)]? =
          some arg ∧
        (arg.kind = .arrayExpression ∨ arg.kind = .literal ∨
         arg.kind = .objectExpression ∨ arg.kind = .templateLiteral)) ∧
    (selectContextArgument callExpression = none →
      ∀ g, checkCallExpression g callExpression = none) := by
  constructor
  · constructor
    · intro h
      obtain ⟨m, hm, hlen, harg⟩ := select_eq_some_elim h
      obtain ⟨hcallee, hmem⟩ := getLoggerMethod_eq_some_iff.mp hm
      obtain ⟨hidx2, hlit2⟩ := getContext_some_elim harg
      exact ⟨m, hcallee, hmem, by omega, hidx2, isContextLiteral_kinds hlit2⟩
    · rintro ⟨m, hcallee, hmem, hlen, hidx, hkind⟩
      have hm : getLoggerMethod callExpression.callee = some m :=
        getLoggerMethod_eq_some_iff.mpr ⟨hcallee, hmem⟩
      have hlit : isContextLiteralExpression arg = true :=
        isContextLiteral_of_kinds hkind
      have hlen2 : ¬callExpression.arguments.length < 2 := by omega
      simp [selectContextArgument, hm, hlen2, getContextArgumentForMethod, hidx, hlit]
  · intro h g
    exact checkCall_none_of_select_none h g

/-- Witness for claim C4: the selector accepts the example debug call. -/
theorem claim_C4_witness :
    selectContextArgument exCallPrimObject =
      some { kind := .objectExpression, typeId := 0 } :=
  (claim_C4 exCallPrimObject { kind := .objectExpression, typeId := 0 }).1.mpr
    ⟨"debug", rfl, by decide, by decide, rfl, by decide⟩

end UWatch
